import Mathlib

/-
Verification of the block document model implemented in src/js/model.js
(class EmailModel). The JavaScript state is embedded value-wise: the
top-level array `this.blocks`, the id map `this.allBlocksMap`, the two
history stacks (kept most-recent-first here, so a JS `push`/`pop` at the
end of the array becomes a cons/uncons at the head and a JS `shift`
becomes `dropLast`), the selected id and the typing flag. Block objects
are shared in the source between the array and the map; an in-place
mutation of a shared object is modelled by updating both views, which
coincides with the source on every state where the two views agree on
the ids they share. Event listener callbacks are external to the state;
each mutation therefore returns, next to the new state, the list of
notification events it fires, in order.
-/

set_option maxHeartbeats 1000000

namespace EmailBuilder

/-- A JS value stored under a key of a block data record: a scalar
(content, size, color, ... encoded as a string) or an array of child
block ids (the `children` property of a row block). -/
inductive Val where
  | str (s : String)
  | ids (l : List String)
deriving DecidableEq, Repr

/-- A block record, `id` / `type` / `data` / `parentId` as created by
`addBlock` in the source. -/
structure Block where
  id : String
  type : String
  data : List (String × Val)
  parentId : Option String
deriving DecidableEq, Repr

/-- First-match lookup in a JS-object-like association list. -/
def assocGet {α : Type} (l : List (String × α)) (k : String) : Option α :=
  (l.find? (fun p => p.1 == k)).map (fun p => p.2)

/-- JS object property assignment: an existing key keeps its position and
gets the new value, a new key is appended (JS objects preserve insertion
order). -/
def assocSet {α : Type} (l : List (String × α)) (k : String) (v : α) : List (String × α) :=
  if l.any (fun p => p.1 == k) then
    l.map (fun p => if p.1 == k then (k, v) else p)
  else l ++ [(k, v)]

/-- The spread merge of `updates` into a data record, later keys
overwriting earlier ones, unspecified keys preserved. -/
def mergeData (d u : List (String × Val)) : List (String × Val) :=
  u.foldl (fun acc p => assocSet acc p.1 p.2) d

/-- The `children` array of a block when its data carries one. In every
state the source manipulates this property is an array; a scalar under
this key would make the source crash on `push`/`filter`, so it reads as
absent here. -/
def childrenOf (b : Block) : Option (List String) :=
  match assocGet b.data "children" with
  | some (Val.ids l) => some l
  | _ => none

/-- The child id list of a block, empty when there is none. -/
def childIdsOf (b : Block) : List String := (childrenOf b).getD []

/-- Truthiness of a nullable string as JS sees it: null, undefined and
the empty string are falsy. -/
def jsFalsy : Option String → Bool
  | none => true
  | some s => s == ""

/-- The three event kinds the model emits. -/
inductive Event where
  | blocksChanged
  | selectionChanged
  | undoStateChanged
deriving DecidableEq, Repr

/-- The state of the EmailModel singleton. -/
structure EmailModel where
  blocks : List Block
  allBlocksMap : List (String × Block)
  undoStack : List (List Block)
  redoStack : List (List Block)
  selectedBlockId : Option String
  isTyping : Bool
deriving DecidableEq, Repr

/-- The argument of `addBlock` / `insertBlock`: a type tag and initial
data. -/
structure BlockInput where
  type : String
  data : List (String × Val)
deriving DecidableEq, Repr

/-- Insertion semantics of `Array.prototype.splice(i, 0, x)`: a negative
index counts back from the end, clamped at 0; a nonnegative index is
clamped to the length. -/
def jsSpliceInsert {α : Type} (l : List α) (i : Int) (x : α) : List α :=
  let pos : Nat := if i < 0 then l.length - min l.length i.natAbs else min i.toNat l.length
  l.take pos ++ x :: l.drop pos

/-- The depth-first collection of nested blocks used by
`getAllBlocksFlat` when the id map is populated: the inner
`collectNested` of the source together with its visited set. The fuel
bounds the recursion depth; every recursive step first records a
previously unvisited map key, so a fuel of the map size plus two is
never exhausted and the bound is unobservable. -/
def collectNestedF (mp : List (String × Block)) :
    Nat → String → List Block × List String → List Block × List String
  | 0, _, st => st
  | fuel+1, cid, (acc, vis) =>
    if cid ∈ vis then (acc, vis)
    else
      match assocGet mp cid with
      | none => (acc, vis)
      | some b =>
        if b.type == "row" then
          match childrenOf b with
          | some l => l.foldl (fun st c => collectNestedF mp fuel c st) (acc ++ [b], vis ++ [cid])
          | none => (acc ++ [b], vis ++ [cid])
        else (acc ++ [b], vis ++ [cid])

mutual

/-- `getBlockById`: the id map is consulted first; on a miss the
top-level array is searched, and finally the (in practice dead) nested
fallback walk of the source. All recursion in this group is fueled;
the source recurses unboundedly here and can even loop forever on
malformed states (the nested fallback of `getBlockById` and the
map-empty fallback of `getAllBlocksFlat` call each other), so the fuel
only makes the embedding total. On the states appearing in the theorems
below every search path is far shorter than the fuel supplied by
`fuelOf`, so the bound is unobservable. -/
def getBlockByIdCore : Nat → List (String × Block) → List Block → String → Option Block
  | 0, _, _, _ => none
  | fuel+1, mp, bs, bid =>
    match assocGet mp bid with
    | some b => some b
    | none =>
      match bs.find? (fun b => b.id == bid) with
      | some b => some b
      | none => findInTopCore fuel mp bs bs bid

/-- The loop of `getBlockById` over the top-level blocks, trying the
nested search on each. -/
def findInTopCore : Nat → List (String × Block) → List Block → List Block → String → Option Block
  | 0, _, _, _, _ => none
  | _+1, _, _, [], _ => none
  | fuel+1, mp, bs, t :: ts, bid =>
    match findInChildrenCore fuel mp bs t bid with
    | some b => some b
    | none => findInTopCore fuel mp bs ts bid

/-- The `findInChildren` helper of `getBlockById`. -/
def findInChildrenCore : Nat → List (String × Block) → List Block → Block → String → Option Block
  | 0, _, _, _, _ => none
  | fuel+1, mp, bs, pb, bid =>
    if pb.type == "row" then
      match childrenOf pb with
      | some l => childLoopCore fuel mp bs l bid
      | none => none
    else none

/-- The loop of `findInChildren` over a child id list. A hit on the id
itself answers from the flat list and stops; otherwise a child found in
the top-level array is searched recursively. -/
def childLoopCore : Nat → List (String × Block) → List Block → List String → String → Option Block
  | 0, _, _, _, _ => none
  | _+1, _, _, [], _ => none
  | fuel+1, mp, bs, c :: cs, bid =>
    if c == bid then (getAllBlocksFlatCore fuel mp bs).find? (fun b => b.id == bid)
    else
      match bs.find? (fun b => b.id == c) with
      | some cb =>
        match findInChildrenCore fuel mp bs cb bid with
        | some r => some r
        | none => childLoopCore fuel mp bs cs bid
      | none => childLoopCore fuel mp bs cs bid

/-- `getAllBlocksFlat`: with a populated id map, the top-level blocks
followed by the depth-first collection of the nested blocks of each
top-level row; with an empty map, the fallback that resolves children
through `getBlockById`. -/
def getAllBlocksFlatCore : Nat → List (String × Block) → List Block → List Block
  | 0, _, bs => bs
  | fuel+1, mp, bs =>
    if mp.isEmpty then flatFallbackTop fuel mp bs bs bs
    else
      (bs.foldl
        (fun st b =>
          if b.type == "row" then
            match childrenOf b with
            | some l => l.foldl (fun st c => collectNestedF mp fuel c st) st
            | none => st
          else st)
        (bs, bs.map (fun b => b.id))).1

/-- The map-empty fallback of `getAllBlocksFlat`: loop over the
top-level blocks. -/
def flatFallbackTop : Nat → List (String × Block) → List Block → List Block → List Block → List Block
  | 0, _, _, _, acc => acc
  | _+1, _, _, [], acc => acc
  | fuel+1, mp, bs, t :: ts, acc =>
    flatFallbackTop fuel mp bs ts (flatFallbackOne fuel mp bs t acc)

/-- One step of the fallback collection: recurse into the children of a
row block. -/
def flatFallbackOne : Nat → List (String × Block) → List Block → Block → List Block → List Block
  | 0, _, _, _, acc => acc
  | fuel+1, mp, bs, b, acc =>
    if b.type == "row" then
      match childrenOf b with
      | some l => if l.isEmpty then acc else flatFallbackKids fuel mp bs l acc
      | none => acc
    else acc

/-- The children loop of the fallback collection. -/
def flatFallbackKids : Nat → List (String × Block) → List Block → List String → List Block → List Block
  | 0, _, _, _, acc => acc
  | _+1, _, _, [], acc => acc
  | fuel+1, mp, bs, c :: cs, acc =>
    match getBlockByIdCore fuel mp bs c with
    | some cb =>
      if (acc.find? (fun b => b.id == c)).isSome then flatFallbackKids fuel mp bs cs acc
      else flatFallbackKids fuel mp bs cs (flatFallbackOne fuel mp bs cb (acc ++ [cb]))
    | none => flatFallbackKids fuel mp bs cs acc

end

/-- Fuel used for the read accessors of a given state. -/
def fuelOf (m : EmailModel) : Nat := m.allBlocksMap.length + m.blocks.length + 2

/-- Public `getBlockById`. -/
def getBlockById (m : EmailModel) (bid : String) : Option Block :=
  getBlockByIdCore (fuelOf m) m.allBlocksMap m.blocks bid

/-- Public `getAllBlocksFlat`. -/
def getAllBlocksFlat (m : EmailModel) : List Block :=
  getAllBlocksFlatCore (fuelOf m) m.allBlocksMap m.blocks

/-- The `getBlock` accessor: map first, then `getBlockById`. -/
def getBlock (m : EmailModel) (bid : String) : Option Block :=
  match assocGet m.allBlocksMap bid with
  | some b => some b
  | none => getBlockById m bid

/-- The `getAllBlocks` accessor: a copy of the top-level array. -/
def getAllBlocks (m : EmailModel) : List Block := m.blocks

/-- The `getChildBlocks` accessor: resolve a row and its child ids, map
first with a `getBlockById` fallback, dropping unresolved ids. -/
def getChildBlocks (m : EmailModel) (rowId : String) : List Block :=
  match getBlockById m rowId with
  | none => []
  | some rb =>
    if rb.type == "row" then
      match childrenOf rb with
      | some l =>
        l.filterMap (fun cid =>
          match assocGet m.allBlocksMap cid with
          | some b => some b
          | none => getBlockById m cid)
      | none => []
    else []

/-- The bounded history push of `saveState`: push the snapshot, then
drop the oldest entry once the stack holds more than 50 states. The
stack is most-recent-first here, so the JS `shift` of the oldest entry
is a `dropLast` of the tail. -/
def pushCap (s : List Block) (us : List (List Block)) : List (List Block) :=
  s :: (if us.length + 1 > 50 then us.dropLast else us)

/-- `saveState`: snapshot the top-level array (nested blocks live only
in the id map and are not serialized), clear the redo stack, notify. -/
def saveState (m : EmailModel) : EmailModel × List Event :=
  ({ m with undoStack := pushCap m.blocks m.undoStack, redoStack := [] },
    [Event.undoStateChanged])

/-- `undo`: failure on an empty stack; otherwise the current top-level
array goes to the redo stack, the most recent snapshot is restored (the
id map is left untouched), the selection is cleared. -/
def undo (m : EmailModel) : EmailModel × Bool × List Event :=
  match m.undoStack with
  | [] => (m, false, [])
  | prev :: rest =>
    ({ m with
        redoStack := m.blocks :: m.redoStack,
        blocks := prev,
        undoStack := rest,
        selectedBlockId := none },
      true,
      [Event.blocksChanged, Event.selectionChanged, Event.undoStateChanged])

/-- `redo`: symmetric to `undo` except that the selection is left
untouched. -/
def redo (m : EmailModel) : EmailModel × Bool × List Event :=
  match m.redoStack with
  | [] => (m, false, [])
  | next :: rest =>
    ({ m with
        undoStack := m.blocks :: m.undoStack,
        blocks := next,
        redoStack := rest },
      true,
      [Event.blocksChanged, Event.undoStateChanged])

/-- The `canUndo` affordance check. -/
def canUndo (m : EmailModel) : Bool := !m.undoStack.isEmpty

/-- The `canRedo` affordance check. -/
def canRedo (m : EmailModel) : Bool := !m.redoStack.isEmpty

/-- Shared-object update: in the source the array and the map hold
references to the same block object, so an in-place mutation is visible
through both; here the update is applied to both views by id. -/
def setBlockEverywhere (m : EmailModel) (bid : String) (b : Block) : EmailModel :=
  { m with
    blocks := m.blocks.map (fun x => if x.id == bid then b else x),
    allBlocksMap := m.allBlocksMap.map (fun p => if p.1 == bid then (p.1, b) else p) }

/-- `addBlock`. The fresh id stands for the `Date.now()`-and-random id
the source generates; theorems assume it unused. The new block is put
into the id map before the history snapshot; it is attached to a parent
only when the parent resolves to a row block, and is otherwise appended
to the top-level array only when no parent id was given. A scalar
`children` value on the parent would crash the source on `push`; it is
treated as absent, matching the source on every state it can reach. -/
def addBlock (m : EmailModel) (inp : BlockInput) (parentId : Option String) (fresh : String) :
    EmailModel × List Event :=
  let pid := if jsFalsy parentId then none else parentId
  let newBlock : Block := { id := fresh, type := inp.type, data := inp.data, parentId := pid }
  let (m2, ev1) := saveState { m with allBlocksMap := assocSet m.allBlocksMap fresh newBlock }
  if jsFalsy parentId then
    ({ m2 with blocks := m2.blocks ++ [newBlock] }, ev1 ++ [Event.blocksChanged])
  else
    match parentId with
    | none => (m2, ev1 ++ [Event.blocksChanged])
    | some ps =>
      match getBlockById m2 ps with
      | some pb =>
        if pb.type == "row" then
          let l := (childrenOf pb).getD []
          (setBlockEverywhere m2 ps
              { pb with data := assocSet pb.data "children" (Val.ids (l ++ [fresh])) },
            ev1 ++ [Event.blocksChanged])
        else (m2, ev1 ++ [Event.blocksChanged])
      | none => (m2, ev1 ++ [Event.blocksChanged])

/-- `insertBlock`: as `addBlock` without a parent, but spliced into the
top-level array at the given index. -/
def insertBlock (m : EmailModel) (inp : BlockInput) (index : Int) (fresh : String) :
    EmailModel × List Event :=
  let newBlock : Block := { id := fresh, type := inp.type, data := inp.data, parentId := none }
  let (m2, ev1) := saveState { m with allBlocksMap := assocSet m.allBlocksMap fresh newBlock }
  ({ m2 with blocks := jsSpliceInsert m2.blocks index newBlock }, ev1 ++ [Event.blocksChanged])

/-- The detach step of `removeBlock`: a block with a truthy parent id is
filtered out of the child array of its parent when the parent resolves
and has a child array; a block with a falsy parent id is filtered out of
the top-level array. -/
def detachBlock (m1 : EmailModel) (block : Block) (bid : String) : EmailModel :=
  if jsFalsy block.parentId then
    { m1 with blocks := m1.blocks.filter (fun b => b.id != bid) }
  else
    match block.parentId with
    | none => m1
    | some ps =>
      match getBlockById m1 ps with
      | some pb =>
        match childrenOf pb with
        | some l =>
          setBlockEverywhere m1 ps
            { pb with data := assocSet pb.data "children" (Val.ids (l.filter (fun i => i != bid))) }
        | none => m1
      | none => m1

/-- The selection step of `removeBlock`: clear and notify when the
removed id was selected. -/
def clearSelIfRemoved (m3 : EmailModel) (bid : String) : EmailModel × List Event :=
  if m3.selectedBlockId == some bid then
    ({ m3 with selectedBlockId := none }, [Event.selectionChanged])
  else (m3, [])

/-- `removeBlock`: history snapshot first (even for an unknown id), then
the detach step, recursive removal of the children of a row (each
recursive call taking its own snapshot), selection clearing,
notification. The recursion of the source is unbounded and runs on the
child array captured before any mutation; the fuel bounds the depth and
is unobservable whenever it exceeds the subtree size, in particular at
the value `removeBlock` supplies. Map entries are never deleted. -/
def removeBlockF : Nat → EmailModel → String → EmailModel × List Event
  | 0, m, _ => (m, [])
  | fuel+1, m, bid =>
    let (m1, ev1) := saveState m
    match getBlockById m1 bid with
    | none => (m1, ev1)
    | some block =>
      let m2 := detachBlock m1 block bid
      let st :=
        if block.type == "row" && (childrenOf block).isSome then
          (childIdsOf block).foldl
            (fun st cid =>
              let r := removeBlockF fuel st.1 cid
              (r.1, st.2 ++ r.2))
            (m2, ([] : List Event))
        else (m2, [])
      let st2 := clearSelIfRemoved st.1 bid
      (st2.1, ev1 ++ st.2 ++ st2.2 ++ [Event.blocksChanged])

/-- Public `removeBlock`. -/
def removeBlock (m : EmailModel) (bid : String) : EmailModel × List Event :=
  removeBlockF (m.allBlocksMap.length + 1) m bid

/-- `updateBlock`: no-op for an unknown id; history snapshot suppressed
while a typing session is open; spread merge into the block data and
shared-object update of both views. -/
def updateBlock (m : EmailModel) (bid : String) (updates : List (String × Val)) :
    EmailModel × List Event :=
  match getBlockById m bid with
  | none => (m, [])
  | some block =>
    let (m1, ev1) := if m.isTyping then (m, ([] : List Event)) else saveState m
    (setBlockEverywhere m1 bid { block with data := mergeData block.data updates },
      ev1 ++ [Event.blocksChanged])

/-- `moveBlock`: history snapshot first (even for an unknown id). With a
truthy parent id resolving to a row with a child array, the block is
relocated inside that array when present there and the call returns
early (without falling through) when absent; in every other parent case
the code falls through to a relocation inside the top-level array. -/
def moveBlock (m : EmailModel) (bid : String) (newIndex : Int) (parentId : Option String) :
    EmailModel × List Event :=
  let (m1, ev1) := saveState m
  match getBlockById m1 bid with
  | none => (m1, ev1)
  | some _ =>
    let tryParent : Option (EmailModel × List Event) :=
      if jsFalsy parentId then none
      else
        match parentId with
        | none => none
        | some ps =>
          match getBlockById m1 ps with
          | some pb =>
            if pb.type == "row" then
              match childrenOf pb with
              | some l =>
                match l.findIdx? (fun x => x == bid) with
                | none => some (m1, ev1)
                | some ci =>
                  let l2 := Val.ids (jsSpliceInsert (l.eraseIdx ci) newIndex bid)
                  some
                    (setBlockEverywhere m1 ps { pb with data := assocSet pb.data "children" l2 },
                      ev1 ++ [Event.blocksChanged])
              | none => none
            else none
          | none => none
    match tryParent with
    | some r => r
    | none =>
      match m1.blocks.findIdx? (fun b => b.id == bid) with
      | none => (m1, ev1)
      | some ci =>
        match m1.blocks.get? ci with
        | none => (m1, ev1)
        | some mv =>
          ({ m1 with blocks := jsSpliceInsert (m1.blocks.eraseIdx ci) newIndex mv },
            ev1 ++ [Event.blocksChanged])

/-- `selectBlock`: no-op (and no notification) when the value does not
change. -/
def selectBlock (m : EmailModel) (bid : Option String) : EmailModel × List Event :=
  if m.selectedBlockId == bid then (m, [])
  else ({ m with selectedBlockId := bid }, [Event.selectionChanged])

/-- `getSelectedBlock`. -/
def getSelectedBlock (m : EmailModel) : Option Block :=
  match m.selectedBlockId with
  | none => none
  | some sid => getBlock m sid

/-- `clearAll`: a complete no-op on an empty document; otherwise one
snapshot, the top-level array emptied, the selection cleared, two
notifications. Map entries are not deleted. -/
def clearAll (m : EmailModel) : EmailModel × List Event :=
  if m.blocks.isEmpty then (m, [])
  else
    let (m1, ev1) := saveState m
    ({ m1 with blocks := [], selectedBlockId := none },
      ev1 ++ [Event.blocksChanged, Event.selectionChanged])

/-- `toJSON`: the flat block list (the version tag is constant and
omitted). -/
def toJSON (m : EmailModel) : List Block := getAllBlocksFlat m

/-- `fromJSON`: one snapshot, then the state is rebuilt from the given
record list with no validation at all; `none` stands for an input whose
`blocks` property is missing or falsy, which the source treats as the
empty list. Entries with a falsy parent id become the top-level array;
all entries are indexed by id into a fresh map. -/
def fromJSON (m : EmailModel) (jsonBlocks : Option (List Block)) : EmailModel × List Event :=
  let (m1, ev1) := saveState m
  let all := jsonBlocks.getD []
  ({ m1 with
      blocks := all.filter (fun b => jsFalsy b.parentId),
      allBlocksMap := all.foldl (fun mp b => assocSet mp b.id b) [],
      selectedBlockId := none },
    ev1 ++ [Event.blocksChanged, Event.selectionChanged])

mutual

/-- `duplicateBlock`: null for an unknown id; otherwise one snapshot,
then a clone with a fresh id (the supply list stands for the generated
ids), recursive duplication of the children of a nonempty row (each
recursive call taking its own snapshot and re-parenting its clone), map
insertion, and splicing right after the original when it is top-level.
The result carries the new state, the events, the returned id and the
remaining id supply. The fuel bounds the recursion depth of the source,
which is unbounded; the value `duplicateBlock` supplies exceeds any
depth reachable from a state whose subtrees live in the map. -/
def duplicateBlockF : Nat → EmailModel → String → List String →
    EmailModel × List Event × Option String × List String
  | 0, m, _, sup => (m, [], none, sup)
  | fuel+1, m, bid, sup =>
    match getBlockById m bid with
    | none => (m, [], none, sup)
    | some block =>
      let (m1, ev1) := saveState m
      let ci := m1.blocks.findIdx? (fun b => b.id == bid)
      let fresh := sup.headD "dup"
      let sup1 := sup.tail
      let base : Block :=
        { id := fresh, type := block.type, data := block.data,
          parentId := if jsFalsy block.parentId then none else block.parentId }
      let hasNonemptyKids :=
        block.type == "row" &&
          (match childrenOf block with
           | some l => !l.isEmpty
           | none => false)
      let r :=
        if hasNonemptyKids then
          let k := dupKidsF fuel fresh (childIdsOf block) m1 sup1
          (k.1, k.2.1, { base with data := assocSet base.data "children" (Val.ids k.2.2.1) },
            k.2.2.2)
        else (m1, ([] : List Event), base, sup1)
      let m3 := { r.1 with allBlocksMap := assocSet r.1.allBlocksMap fresh r.2.2.1 }
      let m4 :=
        if jsFalsy block.parentId then
          match ci with
          | some i => { m3 with blocks := m3.blocks.take (i+1) ++ r.2.2.1 :: m3.blocks.drop (i+1) }
          | none => { m3 with blocks := m3.blocks ++ [r.2.2.1] }
        else m3
      (m4, ev1 ++ r.2.1 ++ [Event.blocksChanged], some fresh, r.2.2.2)

/-- The children loop of `duplicateBlock`: duplicate each resolvable
child, re-parent the clone to the fresh parent id, and collect the clone
ids in order. -/
def dupKidsF : Nat → String → List String → EmailModel → List String →
    EmailModel × List Event × List String × List String
  | 0, _, _, m, sup => (m, [], [], sup)
  | _+1, _, [], m, sup => (m, [], [], sup)
  | fuel+1, fp, cid :: cs, m, sup =>
    match getBlockById m cid with
    | none => dupKidsF fuel fp cs m sup
    | some _ =>
      let r := duplicateBlockF fuel m cid sup
      match r.2.2.1 with
      | none =>
        let rest := dupKidsF fuel fp cs r.1 r.2.2.2
        (rest.1, r.2.1 ++ rest.2.1, rest.2.2.1, rest.2.2.2)
      | some did =>
        let m2 :=
          match getBlockById r.1 did with
          | some dc => setBlockEverywhere r.1 did { dc with parentId := some fp }
          | none => r.1
        let rest := dupKidsF fuel fp cs m2 r.2.2.2
        (rest.1, r.2.1 ++ rest.2.1, did :: rest.2.2.1, rest.2.2.2)

end

/-- Public `duplicateBlock`. -/
def duplicateBlock (m : EmailModel) (bid : String) (sup : List String) :
    EmailModel × List Event × Option String × List String :=
  duplicateBlockF (2 * m.allBlocksMap.length + 4) m bid sup

/-- `startTyping`. -/
def startTyping (m : EmailModel) : EmailModel := { m with isTyping := true }

/-- `stopTyping`. -/
def stopTyping (m : EmailModel) : EmailModel := { m with isTyping := false }

/-- An observer callback as `notifyListeners` runs it: it acts on an
external world (the DOM, a renderer, logs) and either finishes normally
or finishes having raised an error that the dispatcher catches; the
world already reflects whatever the callback did before raising.
Notifications carry no payload, so the store is not handed to the
callback. -/
def Cb (W : Type) : Type := W → W × Option String

/-- The dispatch loop of `notifyListeners`: every callback runs inside
its own try/catch; a raised error is logged (collected here) and the
loop continues with the next subscriber. No error escapes the loop. -/
def runCallbacks {W : Type} : List (Cb W) → W → List String → W × List String
  | [], w, log => (w, log)
  | cb :: rest, w, log =>
    match cb w with
    | (w1, none) => runCallbacks rest w1 log
    | (w1, some e) => runCallbacks rest w1 (log ++ [e])

/-- Model-level dispatch: the loop only touches the listener world and
the log; the store itself is returned unchanged. -/
def notifyDispatch {W : Type} (m : EmailModel) (cbs : List (Cb W)) (w : W) :
    EmailModel × W × List String :=
  (m, runCallbacks cbs w [])

/-- A document tree as the model intends it: an id, a type tag, the
scalar data fields, and the child subtrees (nonempty only for rows). -/
inductive BTree where
  | node (i : String) (ty : String) (fs : List (String × Val)) (kids : List BTree)

/-- The root id of a tree. -/
def BTree.rootId : BTree → String
  | .node i _ _ _ => i

mutual

/-- All ids of a tree, root first. -/
def BTree.ids : BTree → List String
  | .node i _ _ ks => i :: idsL ks

/-- All ids of a tree list. -/
def idsL : List BTree → List String
  | [] => []
  | t :: ts => t.ids ++ idsL ts

end

mutual

/-- The node count of a tree. -/
def BTree.size : BTree → Nat
  | .node _ _ _ ks => 1 + sizeL ks

/-- The node count of a tree list. -/
def sizeL : List BTree → Nat
  | [] => 0
  | t :: ts => t.size + sizeL ts

end

/-- The block record representing a tree node under a given parent: a
row carries its child ids under the `children` key appended after the
scalar fields, exactly as `addBlock` builds it. -/
def nodeBlock (p : Option String) : BTree → Block
  | .node i ty fs ks =>
    { id := i, type := ty,
      data := if ty == "row" then fs ++ [("children", Val.ids (ks.map BTree.rootId))] else fs,
      parentId := p }

mutual

/-- All block records of a tree under a given parent, preorder. -/
def flattenT (p : Option String) : BTree → List Block
  | .node i ty fs ks => nodeBlock p (.node i ty fs ks) :: flattenL (some i) ks

/-- All block records of a tree list under a given parent, preorder. -/
def flattenL (p : Option String) : List BTree → List Block
  | [] => []
  | t :: ts => flattenT p t ++ flattenL p ts

end

/-- The id map of a forest. -/
def buildMap (f : List BTree) : List (String × Block) :=
  (flattenL none f).map (fun b => (b.id, b))

/-- The model state representing a forest: roots in the top-level array,
every node in the id map; stacks, selection and typing flag free. -/
def buildModel (f : List BTree) (sel : Option String) (us rs : List (List Block))
    (ty : Bool) : EmailModel :=
  { blocks := f.map (nodeBlock none), allBlocksMap := buildMap f,
    undoStack := us, redoStack := rs, selectedBlockId := sel, isTyping := ty }

mutual

/-- Shape constraints under which a tree denotes a state the source
builds: nonempty ids, no stray `children` key among the scalar fields,
children only on rows. -/
def BTree.wfB : BTree → Bool
  | .node i ty fs ks =>
    (!(i == "")) && fs.all (fun p => !(p.1 == "children")) &&
      (ks.isEmpty || ty == "row") && wfLB ks

/-- Shape constraints for a tree list. -/
def wfLB : List BTree → Bool
  | [] => true
  | t :: ts => t.wfB && wfLB ts

end

/-- A block without a nonempty child array: removal and duplication of
such a block recurse into nothing, so they take exactly one history
snapshot. -/
def hasNonemptyChildren (b : Block) : Bool :=
  b.type == "row" &&
    (match childrenOf b with
     | some l => !l.isEmpty
     | none => false)

/-- One mutation of the model API, with the fresh ids a creating call
would generate passed explicitly. -/
inductive Mutation where
  | addM (inp : BlockInput) (pid : Option String) (fresh : String)
  | insertM (inp : BlockInput) (idx : Int) (fresh : String)
  | removeM (bid : String)
  | updateM (bid : String) (updates : List (String × Val))
  | moveM (bid : String) (idx : Int) (pid : Option String)
  | dupM (bid : String) (fresh : String)
  | clearM

/-- Run one mutation. -/
def applyMutation : Mutation → EmailModel → EmailModel × List Event
  | .addM inp pid fresh, m => addBlock m inp pid fresh
  | .insertM inp idx fresh, m => insertBlock m inp idx fresh
  | .removeM bid, m => removeBlock m bid
  | .updateM bid u, m => updateBlock m bid u
  | .moveM bid idx pid, m => moveBlock m bid idx pid
  | .dupM bid fresh, m =>
    let r := duplicateBlock m bid [fresh]
    (r.1, r.2.1)
  | .clearM, m => clearAll m

/-- The mutations that record exactly one history snapshot: everything
except an update on a missing block or during typing, a removal or
duplication that recurses into children (those snapshot once per visited
node), a duplication of a missing block (which snapshots nothing), and a
clear of an already empty document (a no-op). -/
def EligibleB : Mutation → EmailModel → Bool
  | .addM _ _ _, _ => true
  | .insertM _ _ _, _ => true
  | .removeM bid, m =>
    match getBlockById m bid with
    | none => true
    | some b => !hasNonemptyChildren b
  | .updateM bid _, m => !m.isTyping && (getBlockById m bid).isSome
  | .moveM _ _ _, _ => true
  | .dupM bid _, m =>
    match getBlockById m bid with
    | none => false
    | some b => !hasNonemptyChildren b
  | .clearM, m => !m.blocks.isEmpty

/-- Agreement of the two views of the source state: every block of the
top-level array is found, with the same value, in the id map. This holds
on every state the source reaches through its mutation API (the array
and the map alias the same objects there); it fails after an `undo`,
which replaces the array with re-parsed values and leaves the map
stale. -/
def Synced (m : EmailModel) : Prop :=
  ∀ b ∈ m.blocks, assocGet m.allBlocksMap b.id = some b

instance (m : EmailModel) : Decidable (Synced m) :=
  inferInstanceAs (Decidable (∀ b ∈ m.blocks, assocGet m.allBlocksMap b.id = some b))

mutual

/-- The nodes of a tree are all present in a map with their forest
values: the root under the given parent, the kids under the root. -/
def IntactT (mp : List (String × Block)) (p : Option String) : BTree → Prop
  | .node i ty fs ks =>
    assocGet mp i = some (nodeBlock p (.node i ty fs ks)) ∧ IntactL mp (some i) ks

/-- Intactness of a list of sibling subtrees. -/
def IntactL (mp : List (String × Block)) (p : Option String) : List BTree → Prop
  | [] => True
  | t :: ts => IntactT mp p t ∧ IntactL mp p ts

end

/-- The subtype tag of the root of a tree. -/
def BTree.rootTy : BTree → String
  | .node _ ty _ _ => ty

/-- The child subtrees of the root of a tree. -/
def BTree.kids : BTree → List BTree
  | .node _ _ _ ks => ks

/-- A row block with one nested text child, used as a concrete state. -/
def exRow : Block :=
  { id := "r", type := "row", data := [("children", Val.ids ["c"])], parentId := none }

/-- The nested text child of `exRow`. -/
def exChild : Block :=
  { id := "c", type := "text", data := [("content", Val.str "a")], parentId := some "r" }

/-- A concrete reachable state: one top-level row with one nested text
block, both views in agreement, empty history. -/
def exModel : EmailModel :=
  { blocks := [exRow], allBlocksMap := [("r", exRow), ("c", exChild)],
    undoStack := [], redoStack := [], selectedBlockId := none, isTyping := false }

/-- Apply a list of update calls in order. -/
def applyUpdates (m : EmailModel) (edits : List (String × List (String × Val))) : EmailModel :=
  edits.foldl (fun mm e => (updateBlock mm e.1 e.2).1) m

/-- Three plain text top-level blocks for the index counterexample. -/
def exA : Block := { id := "a", type := "text", data := [], parentId := none }

/-- Second text block. -/
def exB : Block := { id := "b", type := "text", data := [], parentId := none }

/-- Third text block. -/
def exC : Block := { id := "cc", type := "text", data := [], parentId := none }

/-- A concrete state with three top-level text blocks. -/
def exModel3 : EmailModel :=
  { blocks := [exA, exB, exC], allBlocksMap := [("a", exA), ("b", exB), ("cc", exC)],
    undoStack := [], redoStack := [], selectedBlockId := none, isTyping := false }

/-- A concrete state with no top-level blocks but nonempty history and a
set selection. -/
def exEmptyDoc : EmailModel :=
  { blocks := [], allBlocksMap := [("r", exRow), ("c", exChild)],
    undoStack := [[exRow]], redoStack := [[exRow]], selectedBlockId := some "r",
    isTyping := false }

/-- A row block with an empty child array. -/
def exEmptyRow : Block :=
  { id := "e", type := "row", data := [("children", Val.ids [])], parentId := none }

/-- A top-level text block next to an empty row, for the move
counterexample. -/
def exT : Block := { id := "t", type := "text", data := [], parentId := none }

/-- Concrete state: a text block and an empty row, both top-level. -/
def exModelMove : EmailModel :=
  { blocks := [exT, exEmptyRow], allBlocksMap := [("t", exT), ("e", exEmptyRow)],
    undoStack := [], redoStack := [], selectedBlockId := none, isTyping := false }

/-- The concrete child tree: a text block. -/
def exTreeChild : BTree := .node "c" "text" [("content", Val.str "a")] []

/-- The concrete container tree: a row holding one text block. -/
def exTree : BTree := .node "r" "row" [] [exTreeChild]

theorem undo_cons (m : EmailModel) (s : List Block) (t : List (List Block))
    (h : m.undoStack = s :: t) :
    (undo m).1 = { m with redoStack := m.blocks :: m.redoStack, blocks := s, undoStack := t, selectedBlockId := none } := by
  simp [undo, h]

theorem roundtrip_core (m m1 : EmailModel)
    (hu : m1.undoStack = pushCap m.blocks m.undoStack) (hr : m1.redoStack = []) :
    (undo m1).1.blocks = m.blocks ∧ (redo (undo m1).1).1.blocks = m1.blocks := by
  rw [pushCap] at hu
  rw [undo_cons m1 _ _ hu]
  constructor
  · rfl
  · simp [redo, hr]

theorem getBlockById_fields (m m2 : EmailModel) (hmap : m2.allBlocksMap = m.allBlocksMap)
    (hbs : m2.blocks = m.blocks) (bid : String) :
    getBlockById m2 bid = getBlockById m bid := by
  simp [getBlockById, fuelOf, hmap, hbs]

theorem setBlockEverywhere_undoStack (m : EmailModel) (bid : String) (b : Block) :
    (setBlockEverywhere m bid b).undoStack = m.undoStack := rfl

theorem setBlockEverywhere_redoStack (m : EmailModel) (bid : String) (b : Block) :
    (setBlockEverywhere m bid b).redoStack = m.redoStack := rfl

theorem setBlockEverywhere_selectedBlockId (m : EmailModel) (bid : String) (b : Block) :
    (setBlockEverywhere m bid b).selectedBlockId = m.selectedBlockId := rfl

theorem setBlockEverywhere_isTyping (m : EmailModel) (bid : String) (b : Block) :
    (setBlockEverywhere m bid b).isTyping = m.isTyping := rfl

theorem detachBlock_undoStack (m1 : EmailModel) (block : Block) (bid : String) :
    (detachBlock m1 block bid).undoStack = m1.undoStack := by
  unfold detachBlock
  split
  · rfl
  · split
    · rfl
    · split
      · split <;> simp [setBlockEverywhere]
      · rfl

theorem detachBlock_redoStack (m1 : EmailModel) (block : Block) (bid : String) :
    (detachBlock m1 block bid).redoStack = m1.redoStack := by
  unfold detachBlock
  split
  · rfl
  · split
    · rfl
    · split
      · split <;> simp [setBlockEverywhere]
      · rfl

theorem clearSelIfRemoved_undoStack (m3 : EmailModel) (bid : String) :
    (clearSelIfRemoved m3 bid).1.undoStack = m3.undoStack := by
  unfold clearSelIfRemoved
  split <;> rfl

theorem clearSelIfRemoved_redoStack (m3 : EmailModel) (bid : String) :
    (clearSelIfRemoved m3 bid).1.redoStack = m3.redoStack := by
  unfold clearSelIfRemoved
  split <;> rfl

theorem removeBlockF_stacks (fuel : Nat) (m : EmailModel) (bid : String)
    (h : ∀ b, getBlockById m bid = some b → hasNonemptyChildren b = false) :
    (removeBlockF (fuel+1) m bid).1.undoStack = pushCap m.blocks m.undoStack ∧
      (removeBlockF (fuel+1) m bid).1.redoStack = [] := by
  unfold removeBlockF saveState
  dsimp only
  split
  · simp
  · rename_i b heq
    have hb : hasNonemptyChildren b = false := h b heq
    unfold hasNonemptyChildren at hb
    have hfold :
        (if b.type == "row" && (childrenOf b).isSome then
          (childIdsOf b).foldl
            (fun st cid =>
              let r := removeBlockF fuel st.1 cid
              (r.1, st.2 ++ r.2))
            (detachBlock { m with undoStack := pushCap m.blocks m.undoStack, redoStack := [] } b bid, ([] : List Event))
         else (detachBlock { m with undoStack := pushCap m.blocks m.undoStack, redoStack := [] } b bid, [])) =
        (detachBlock { m with undoStack := pushCap m.blocks m.undoStack, redoStack := [] } b bid, []) := by
      by_cases hrow : (b.type == "row") = true
      · cases hcl : childrenOf b with
        | none => simp [hcl]
        | some l =>
          have hl : l = [] := by
            rw [hrow, hcl] at hb
            simpa using hb
          subst hl
          simp [hcl, childIdsOf]
      · simp only [Bool.not_eq_true] at hrow
        simp [hrow]
    rw [hfold]
    constructor
    · rw [clearSelIfRemoved_undoStack, detachBlock_undoStack]
    · rw [clearSelIfRemoved_redoStack, detachBlock_redoStack]

theorem addBlock_stacks (m : EmailModel) (inp : BlockInput) (pid : Option String)
    (fresh : String) :
    (addBlock m inp pid fresh).1.undoStack = pushCap m.blocks m.undoStack ∧
      (addBlock m inp pid fresh).1.redoStack = [] := by
  unfold addBlock saveState
  dsimp only
  split
  · simp
  · split
    · simp
    · split
      · split <;> simp [setBlockEverywhere]
      · simp

theorem insertBlock_stacks (m : EmailModel) (inp : BlockInput) (idx : Int) (fresh : String) :
    (insertBlock m inp idx fresh).1.undoStack = pushCap m.blocks m.undoStack ∧
      (insertBlock m inp idx fresh).1.redoStack = [] := by
  unfold insertBlock saveState
  dsimp only
  simp

theorem updateBlock_stacks (m : EmailModel) (bid : String) (u : List (String × Val))
    (hty : m.isTyping = false) (hb : (getBlockById m bid).isSome) :
    (updateBlock m bid u).1.undoStack = pushCap m.blocks m.undoStack ∧
      (updateBlock m bid u).1.redoStack = [] := by
  unfold updateBlock saveState
  dsimp only
  split
  · simp_all
  · simp [hty, setBlockEverywhere]

theorem moveBlock_stacks (m : EmailModel) (bid : String) (idx : Int) (pid : Option String) :
    (moveBlock m bid idx pid).1.undoStack = pushCap m.blocks m.undoStack ∧
      (moveBlock m bid idx pid).1.redoStack = [] := by
  unfold moveBlock saveState
  dsimp only
  split
  · simp
  · split
    · rename_i r heq
      split at heq
      all_goals try split at heq
      all_goals try split at heq
      all_goals try split at heq
      all_goals try split at heq
      all_goals try split at heq
      all_goals try (cases heq; simp [setBlockEverywhere])
      all_goals simp_all [setBlockEverywhere]
    · split
      · simp
      · split
        · simp
        · simp [setBlockEverywhere]

theorem clearAll_stacks (m : EmailModel) (hne : m.blocks.isEmpty = false) :
    (clearAll m).1.undoStack = pushCap m.blocks m.undoStack ∧
      (clearAll m).1.redoStack = [] := by
  unfold clearAll saveState
  simp [hne]

theorem duplicateBlockF_stacks (fuel : Nat) (m : EmailModel) (bid : String) (sup : List String)
    (b : Block) (hb : getBlockById m bid = some b) (hnc : hasNonemptyChildren b = false) :
    (duplicateBlockF (fuel+1) m bid sup).1.undoStack = pushCap m.blocks m.undoStack ∧
      (duplicateBlockF (fuel+1) m bid sup).1.redoStack = [] := by
  unfold duplicateBlockF saveState
  dsimp only
  rw [hb]
  dsimp only
  have hcond :
      (b.type == "row" &&
        (match childrenOf b with
         | some l => !l.isEmpty
         | none => false)) = false := hnc
  rw [hcond]
  simp only [Bool.false_eq_true, if_false]
  split
  · split <;> simp [setBlockEverywhere]
  · simp

theorem getBlockById_of_assocGet (m : EmailModel) (bid : String) (b : Block)
    (h : assocGet m.allBlocksMap bid = some b) : getBlockById m bid = some b := by
  show getBlockByIdCore (m.allBlocksMap.length + m.blocks.length + 1 + 1) m.allBlocksMap m.blocks bid = some b
  rw [getBlockByIdCore]
  simp [h]

theorem applyMutation_stacks (mu : Mutation) (m : EmailModel) (h : EligibleB mu m = true) :
    (applyMutation mu m).1.undoStack = pushCap m.blocks m.undoStack ∧
      (applyMutation mu m).1.redoStack = [] := by
  cases mu with
  | addM inp pid fresh => exact addBlock_stacks m inp pid fresh
  | insertM inp idx fresh => exact insertBlock_stacks m inp idx fresh
  | removeM bid =>
    refine removeBlockF_stacks m.allBlocksMap.length m bid ?_
    intro b hb
    rw [EligibleB] at h
    rw [hb] at h
    simpa using h
  | updateM bid u =>
    rw [EligibleB] at h
    simp only [Bool.and_eq_true, Bool.not_eq_true'] at h
    exact updateBlock_stacks m bid u h.1 h.2
  | moveM bid idx pid => exact moveBlock_stacks m bid idx pid
  | dupM bid fresh =>
    rw [EligibleB] at h
    cases hb : getBlockById m bid with
    | none => rw [hb] at h; simp at h
    | some b =>
      rw [hb] at h
      simp only [Bool.not_eq_true'] at h
      exact duplicateBlockF_stacks (2 * m.allBlocksMap.length + 3) m bid [fresh] b hb h
  | clearM =>
    rw [EligibleB] at h
    simp only [Bool.not_eq_true'] at h
    exact clearAll_stacks m h

/-- Claim C1, amended. For a mutation that records exactly one history
snapshot (add, insertAt, move, update outside typing on an existing
block, remove of a block without a nonempty child array, duplicate of an
existing such block, clear on a nonempty document), undo restores the
top-level tree to its pre-mutation value and redo then restores the
post-mutation top-level tree. The claim as stated fails: a snapshot
serializes only the top-level array and the id map is not restored, so
observation through get and getChildren after undo can show the mutated
values, and remove or duplicate of a container records one snapshot per
visited node. The Synced hypothesis restricts the statement to states
whose id map agrees with the top-level array, which holds on every state
the mutation API of the source produces. -/
theorem c1_roundtrip (m : EmailModel) (mu : Mutation) (hS : Synced m)
    (h : EligibleB mu m = true) :
    (undo (applyMutation mu m).1).1.blocks = m.blocks ∧
      (redo (undo (applyMutation mu m).1).1).1.blocks = (applyMutation mu m).1.blocks := by
  have hst := applyMutation_stacks mu m h
  exact roundtrip_core m _ hst.1 hst.2




/-- Claim C1 witness: the amended round trip at a concrete state and
mutation. -/
theorem c1_witness :
    Synced exModel ∧
      EligibleB (Mutation.updateM "c" [("content", Val.str "b")]) exModel = true ∧
      ((undo (applyMutation (Mutation.updateM "c" [("content", Val.str "b")]) exModel).1).1.blocks
          = exModel.blocks ∧
        (redo (undo (applyMutation (Mutation.updateM "c" [("content", Val.str "b")]) exModel).1).1).1.blocks
          = (applyMutation (Mutation.updateM "c" [("content", Val.str "b")]) exModel).1.blocks) :=
  ⟨by decide, by decide,
    c1_roundtrip exModel (Mutation.updateM "c" [("content", Val.str "b")]) (by decide) (by decide)⟩

/-- Claim C1 counterexample: update a nested block outside a typing
session, then undo; the tree observed through getChildBlocks still shows
the updated content, not the pre-mutation content, because the snapshot
held only the top-level array and the id map was never rolled back. -/
theorem c1_counterexample :
    getChildBlocks ((undo (updateBlock exModel "c" [("content", Val.str "b")]).1).1) "r" ≠
      getChildBlocks exModel "r" := by decide


theorem updateBlock_typing (m : EmailModel) (bid : String) (u : List (String × Val))
    (hty : m.isTyping = true) :
    (updateBlock m bid u).1.undoStack = m.undoStack ∧
      (updateBlock m bid u).1.redoStack = m.redoStack ∧
      (updateBlock m bid u).1.isTyping = true := by
  unfold updateBlock
  dsimp only
  split
  · exact ⟨rfl, rfl, hty⟩
  · simp [hty, setBlockEverywhere]

theorem applyUpdates_typing (edits : List (String × List (String × Val))) :
    ∀ m : EmailModel, m.isTyping = true →
      (applyUpdates m edits).undoStack = m.undoStack ∧
        (applyUpdates m edits).redoStack = m.redoStack ∧
        (applyUpdates m edits).isTyping = true := by
  induction edits with
  | nil => intro m hty; exact ⟨rfl, rfl, hty⟩
  | cons e es ih =>
    intro m hty
    have h1 := updateBlock_typing m e.1 e.2 hty
    have h2 := ih (updateBlock m e.1 e.2).1 h1.2.2
    unfold applyUpdates at h2 ⊢
    rw [List.foldl_cons]
    exact ⟨h2.1.trans h1.1, h2.2.1.trans h1.2.1, h2.2.2⟩

/-- Claim C2, amended. A typing session (startTyping, any number of
update calls, stopTyping) grows the undo stack by zero entries, not one:
history capture is skipped entirely while the flag is set. A single undo
afterwards therefore restores the snapshot that was already on top of
the stack, which is the state before the mutation that preceded the
session, reverting the session edits together with that mutation. -/
theorem c2_session (m : EmailModel) (edits : List (String × List (String × Val)))
    (s : List Block) (rest : List (List Block)) (hs : m.undoStack = s :: rest) :
    (stopTyping (applyUpdates (startTyping m) edits)).undoStack = m.undoStack ∧
      (stopTyping (applyUpdates (startTyping m) edits)).redoStack = m.redoStack ∧
      (undo (stopTyping (applyUpdates (startTyping m) edits))).1.blocks = s := by
  have h := applyUpdates_typing edits (startTyping m) rfl
  have hu : (stopTyping (applyUpdates (startTyping m) edits)).undoStack = m.undoStack := h.1
  have hr : (stopTyping (applyUpdates (startTyping m) edits)).redoStack = m.redoStack := h.2.1
  refine ⟨hu, hr, ?_⟩
  rw [undo_cons _ s rest (hu.trans hs)]

/-- Claim C2 witness: the amended session law at a concrete state with
one prior snapshot. -/
theorem c2_witness :
    exModel.undoStack = [] ∧
      ((stopTyping (applyUpdates (startTyping { exModel with undoStack := [[exRow]] })
          [("c", [("content", Val.str "b")])])).undoStack
            = { exModel with undoStack := [[exRow]] }.undoStack ∧
        (stopTyping (applyUpdates (startTyping { exModel with undoStack := [[exRow]] })
          [("c", [("content", Val.str "b")])])).redoStack
            = { exModel with undoStack := [[exRow]] }.redoStack ∧
        (undo (stopTyping (applyUpdates (startTyping { exModel with undoStack := [[exRow]] })
          [("c", [("content", Val.str "b")])]))).1.blocks = [exRow]) :=
  ⟨rfl, c2_session { exModel with undoStack := [[exRow]] } [("c", [("content", Val.str "b")])]
    [exRow] [] rfl⟩

/-- Claim C2 counterexample: a session of one update leaves the undo
stack at its previous length instead of growing it by one entry. -/
theorem c2_counterexample :
    (stopTyping (applyUpdates (startTyping exModel)
        [("c", [("content", Val.str "b")])])).undoStack.length ≠
      exModel.undoStack.length + 1 := by decide

/-- Claim C4, amended. remove and move with an unknown id raise no
error and leave the tree, the map and the selection unchanged, but they
are not complete no-ops: both call saveState before the existence check,
so a snapshot of the unchanged tree is pushed onto the undo stack, the
redo stack is emptied, and an undo-state notification fires. -/
theorem c4_unknown_noop (m : EmailModel) (bid : String) (idx : Int) (pid : Option String)
    (h : getBlockById m bid = none) :
    removeBlock m bid =
        ({ m with undoStack := pushCap m.blocks m.undoStack, redoStack := [] },
          [Event.undoStateChanged]) ∧
      moveBlock m bid idx pid =
        ({ m with undoStack := pushCap m.blocks m.undoStack, redoStack := [] },
          [Event.undoStateChanged]) := by
  constructor
  · show removeBlockF (m.allBlocksMap.length + 1) m bid = _
    rw [removeBlockF]
    dsimp only
    rw [saveState]
    dsimp only
    rw [show getBlockById { m with undoStack := pushCap m.blocks m.undoStack, redoStack := [] } bid
        = getBlockById m bid from rfl, h]
  · unfold moveBlock
    dsimp only
    rw [saveState]
    dsimp only
    rw [show getBlockById { m with undoStack := pushCap m.blocks m.undoStack, redoStack := [] } bid
        = getBlockById m bid from rfl, h]

/-- Claim C4 witness: the amended no-op law at a concrete state with a
nonempty redo stack. -/
theorem c4_witness :
    getBlockById { exModel with redoStack := [[exRow]] } "zzz" = none ∧
      (removeBlock { exModel with redoStack := [[exRow]] } "zzz" =
        ({ { exModel with redoStack := [[exRow]] } with
            undoStack := pushCap exModel.blocks exModel.undoStack, redoStack := [] },
          [Event.undoStateChanged]) ∧
      moveBlock { exModel with redoStack := [[exRow]] } "zzz" 0 none =
        ({ { exModel with redoStack := [[exRow]] } with
            undoStack := pushCap exModel.blocks exModel.undoStack, redoStack := [] },
          [Event.undoStateChanged])) :=
  ⟨by decide, c4_unknown_noop { exModel with redoStack := [[exRow]] } "zzz" 0 none (by decide)⟩

/-- Claim C4 counterexample: removing an unknown id empties the redo
stack, where the claim demands the redo stack be exactly as before. -/
theorem c4_counterexample :
    (removeBlock { exModel with redoStack := [[exRow]] } "zzz").1.redoStack ≠
      { exModel with redoStack := [[exRow]] }.redoStack := by decide

/-- Claim C7, amended. fromJSON performs no validation and never leaves
the state untouched: it always pushes one history snapshot, empties the
redo stack, replaces the top-level array with the entries whose parent
id is falsy (the empty array when the blocks property is missing or
falsy), rebuilds the map from all entries verbatim, and clears the
selection. The prior top-level tree is recoverable only through the
pushed undo entry. -/
theorem c7_fromJSON_no_validation (m : EmailModel) (j : Option (List Block)) :
    (fromJSON m j).1.undoStack = pushCap m.blocks m.undoStack ∧
      (fromJSON m j).1.redoStack = [] ∧
      (fromJSON m j).1.blocks = (j.getD []).filter (fun b => jsFalsy b.parentId) ∧
      (fromJSON m j).1.selectedBlockId = none ∧
      (undo (fromJSON m j).1).1.blocks = m.blocks := by
  refine ⟨rfl, rfl, rfl, rfl, ?_⟩
  have hu : (fromJSON m j).1.undoStack = m.blocks :: (if m.undoStack.length + 1 > 50 then m.undoStack.dropLast else m.undoStack) := rfl
  rw [undo_cons _ _ _ hu]

/-- Claim C7 counterexample: importing an object without a blocks
sequence wipes the document instead of leaving the state untouched. -/
theorem c7_counterexample : (fromJSON exModel none).1.blocks ≠ exModel.blocks := by decide

/-- Claim C8, amended. For a nonnegative index, insertAt places the new
top-level block at position max 0 (min index N) as the claim states. For
a negative index the claim fails: splice counts back from the end, so
the position is max (N + index) 0 rather than 0. -/
theorem c8_insert_clamp (m : EmailModel) (inp : BlockInput) (idx : Int) (fresh : String)
    (h : 0 ≤ idx) :
    (insertBlock m inp idx fresh).1.blocks =
      m.blocks.take (max 0 (min idx (m.blocks.length : Int))).toNat ++
        ({ id := fresh, type := inp.type, data := inp.data, parentId := none } : Block) ::
          m.blocks.drop (max 0 (min idx (m.blocks.length : Int))).toNat := by
  unfold insertBlock saveState jsSpliceInsert
  dsimp only
  have hpos :
      (if idx < 0 then m.blocks.length - min m.blocks.length idx.natAbs
       else min idx.toNat m.blocks.length) =
        (max 0 (min idx (m.blocks.length : Int))).toNat := by
    rw [if_neg (not_lt.mpr h)]
    omega
  rw [hpos]





/-- Claim C8 witness: the clamp law at a concrete state with an index
beyond the length. -/
theorem c8_witness :
    (0 : Int) ≤ 7 ∧
      (insertBlock exModel3 { type := "text", data := [] } 7 "n").1.blocks =
        exModel3.blocks.take (max 0 (min 7 (exModel3.blocks.length : Int))).toNat ++
          ({ id := "n", type := "text", data := [], parentId := none } : Block) ::
            exModel3.blocks.drop (max 0 (min 7 (exModel3.blocks.length : Int))).toNat :=
  ⟨by decide, c8_insert_clamp exModel3 { type := "text", data := [] } 7 "n" (by decide)⟩

/-- Claim C8 counterexample: inserting at index -1 into three blocks
places the new block at position 2 (counting from the end), while the
formula of the claim puts it at position 0. -/
theorem c8_counterexample :
    (insertBlock exModel3 { type := "text", data := [] } (-1) "n").1.blocks.map Block.id
        = ["a", "b", "n", "cc"] ∧
      ((max 0 (min (-1) ((exModel3.blocks.length : Int)))).toNat = 0 ∧
        ["a", "b", "n", "cc"] ≠ ["n", "a", "b", "cc"]) := by
  refine ⟨by decide, by decide, by decide⟩

theorem runCallbacks_world {W : Type} (cbs : List (Cb W)) :
    ∀ (w : W) (log : List String),
      (runCallbacks cbs w log).1 = cbs.foldl (fun w cb => (cb w).1) w := by
  induction cbs with
  | nil => intro w log; rfl
  | cons cb rest ih =>
    intro w log
    rw [runCallbacks, List.foldl_cons]
    cases hcw : cb w with
    | mk w1 e =>
      cases e with
      | none => simpa [hcw] using ih w1 log
      | some err => simpa [hcw] using ih w1 (log ++ [err])

/-- Claim C9. Each subscriber runs inside its own try/catch: the
dispatch loop applies every callback in registration order regardless of
earlier failures (the final world is the fold of all of them), collects
raised errors in the log instead of propagating them, and returns the
store unchanged. -/
theorem c9_subscriber_isolation {W : Type} (m : EmailModel) (cbs : List (Cb W)) (w : W) :
    (notifyDispatch m cbs w).1 = m ∧
      (notifyDispatch m cbs w).2.1 = cbs.foldl (fun w cb => (cb w).1) w :=
  ⟨rfl, runCallbacks_world cbs w []⟩

/-- Claim C10. clear on a document whose top-level array is empty is a
complete no-op: the state (including both history stacks and the
selection) is returned unchanged and no notification fires. -/
theorem c10_clear_empty_noop (m : EmailModel) (h : m.blocks = []) :
    clearAll m = (m, []) := by
  unfold clearAll
  simp [h]


/-- Claim C10 witness: the no-op law at a concrete state with nonempty
stacks and a set selection. -/
theorem c10_witness : exEmptyDoc.blocks = [] ∧ clearAll exEmptyDoc = (exEmptyDoc, []) :=
  ⟨rfl, c10_clear_empty_noop exEmptyDoc rfl⟩

/-- Claim C6, amended. move with a new owner never reparents: when the
owner resolves to a row whose child array does not contain the moved id,
the call returns early as a no-op on the tree (parentId, child lists and
the top-level array are unchanged), having only pushed the unconditional
history snapshot. The relocation the claim describes only happens inside
a sibling list the block already belongs to. -/
theorem c6_move_no_reparent (m : EmailModel) (bid : String) (idx : Int) (ownerId : String)
    (cb : Block) (l : List String)
    (hown : assocGet m.allBlocksMap ownerId = some cb) (hrow : cb.type = "row")
    (hl : childrenOf cb = some l) (hnotin : bid ∉ l) (hne : ownerId ≠ "") :
    moveBlock m bid idx (some ownerId) =
      ({ m with undoStack := pushCap m.blocks m.undoStack, redoStack := [] },
        [Event.undoStateChanged]) := by
  unfold moveBlock
  dsimp only
  rw [saveState]
  dsimp only
  cases hb : getBlockById { m with undoStack := pushCap m.blocks m.undoStack, redoStack := [] } bid with
  | none => rfl
  | some b =>
    have hfalsy : jsFalsy (some ownerId) = false := by
      simp [jsFalsy, hne]
    have hown1 : getBlockById { m with undoStack := pushCap m.blocks m.undoStack, redoStack := [] } ownerId = some cb :=
      getBlockById_of_assocGet _ ownerId cb hown
    have hrowb : (cb.type == "row") = true := by simp [hrow]
    have hfind : l.findIdx? (fun x => x == bid) = none := by
      rw [List.findIdx?_eq_none_iff]
      intro x hx
      simp only [beq_eq_false_iff_ne, ne_eq]
      intro hEq
      exact hnotin (hEq ▸ hx)
    simp [hfalsy, hown1, hrowb, hl, hfind]




/-- Claim C6 witness: the amended no-reparent law at a concrete state
with an empty row as the target owner. -/
theorem c6_witness :
    assocGet exModelMove.allBlocksMap "e" = some exEmptyRow ∧
      moveBlock exModelMove "t" 0 (some "e") =
        ({ exModelMove with undoStack := pushCap exModelMove.blocks exModelMove.undoStack, redoStack := [] },
          [Event.undoStateChanged]) :=
  ⟨by decide,
    c6_move_no_reparent exModelMove "t" 0 "e" exEmptyRow [] (by decide) (by decide) (by decide)
      (by decide) (by decide)⟩

/-- Claim C6 counterexample: moving a top-level text block into an
existing empty row leaves its parentId null and the row childless, where
the claim demands the block be reattached under the row. -/
theorem c6_counterexample :
    (getBlockById (moveBlock exModelMove "t" 0 (some "e")).1 "t").map Block.parentId =
        some none ∧
      getChildBlocks (moveBlock exModelMove "t" 0 (some "e")).1 "e" = [] ∧
      some none ≠ some (some "e") := by
  refine ⟨by decide, by decide, by decide⟩

theorem assocGet_nil {α : Type} (k : String) : assocGet ([] : List (String × α)) k = none := rfl

theorem assocGet_cons {α : Type} (p : String × α) (ps : List (String × α)) (k : String) :
    assocGet (p :: ps) k = if p.1 == k then some p.2 else assocGet ps k := by
  unfold assocGet
  rw [List.find?_cons]
  cases hp : (p.1 == k) <;> simp [hp]

theorem assocGet_append {α : Type} (l1 l2 : List (String × α)) (k : String) :
    assocGet (l1 ++ l2) k =
      match assocGet l1 k with
      | some v => some v
      | none => assocGet l2 k := by
  induction l1 with
  | nil => simp [assocGet_nil]
  | cons p ps ih =>
    rw [List.cons_append, assocGet_cons, assocGet_cons]
    by_cases hp : (p.1 == k) = true
    · simp [hp]
    · simp [hp, ih]

theorem assocGet_mem {α : Type} (l : List (String × α)) (k : String) (v : α)
    (h : assocGet l k = some v) : (k, v) ∈ l := by
  induction l with
  | nil => simp [assocGet_nil] at h
  | cons p ps ih =>
    rw [assocGet_cons] at h
    split at h
    · rename_i hp
      have hk : p.1 = k := by simpa using hp
      have hv : p.2 = v := by simpa using h
      have : p = (k, v) := by
        cases p
        simp_all
      rw [← this]
      exact List.mem_cons_self p ps
    · exact List.mem_cons_of_mem p (ih h)

theorem assocSet_not_mem {α : Type} (l : List (String × α)) (k : String) (v : α)
    (h : assocGet l k = none) : assocSet l k v = l ++ [(k, v)] := by
  unfold assocSet
  rw [if_neg]
  intro hany
  rw [List.any_eq_true] at hany
  obtain ⟨p, hmem, hp⟩ := hany
  unfold assocGet at h
  cases hf : List.find? (fun q => q.1 == k) l with
  | none =>
    have := List.find?_eq_none.mp hf p hmem
    exact this hp
  | some q => rw [hf] at h; simp at h

theorem collectNestedF_sound (mp : List (String × Block)) (P : String → Prop)
    (hcl : ∀ k b, P k → assocGet mp k = some b → P b.id ∧ ∀ c ∈ childIdsOf b, P c) :
    ∀ (fuel : Nat) (cid : String) (st : List Block × List String), P cid →
      (∀ x ∈ st.1, P x.id) → ∀ x ∈ (collectNestedF mp fuel cid st).1, P x.id := by
  intro fuel
  induction fuel with
  | zero =>
    intro cid st hP hacc x hx
    exact hacc x (by simpa [collectNestedF] using hx)
  | succ n ih =>
    have hfold : ∀ (l : List String) (st : List Block × List String),
        (∀ x ∈ st.1, P x.id) → (∀ c ∈ l, P c) →
        ∀ x ∈ (l.foldl (fun st c => collectNestedF mp n c st) st).1, P x.id := by
      intro l
      induction l with
      | nil => intro st h1 _ x hx; exact h1 x hx
      | cons c cs ihl =>
        intro st h1 h2 x hx
        rw [List.foldl_cons] at hx
        exact ihl (collectNestedF mp n c st)
          (ih c st (h2 c (List.mem_cons_self c cs)) h1)
          (fun d hd => h2 d (List.mem_cons_of_mem c hd)) x hx
    intro cid st hP hacc
    obtain ⟨acc, vis⟩ := st
    rw [collectNestedF]
    by_cases hv : cid ∈ vis
    · simp only [if_pos hv]
      exact hacc
    · simp only [if_neg hv]
      cases hm : assocGet mp cid with
      | none => exact hacc
      | some b =>
        have hPb := hcl cid b hP hm
        have hacc2 : ∀ x ∈ acc ++ [b], P x.id := by
          intro x hx
          rcases List.mem_append.mp hx with h1 | h1
          · exact hacc x h1
          · rw [List.mem_singleton.mp h1]
            exact hPb.1
        by_cases hrow : (b.type == "row") = true
        · simp only [hrow, if_true]
          cases hc : childrenOf b with
          | none => exact hacc2
          | some l =>
            refine hfold l (acc ++ [b], vis ++ [cid]) hacc2 ?_
            intro c hc2
            exact hPb.2 c (by simp [childIdsOf, hc, hc2])
        · simp only [hrow]
          exact hacc2

theorem getAllBlocksFlat_sound (m : EmailModel) (P : String → Prop)
    (hmp : m.allBlocksMap ≠ [])
    (hcl : ∀ k b, P k → assocGet m.allBlocksMap k = some b → P b.id ∧ ∀ c ∈ childIdsOf b, P c)
    (hbs : ∀ b ∈ m.blocks, P b.id ∧ ∀ c ∈ childIdsOf b, P c) :
    ∀ x ∈ getAllBlocksFlat m, P x.id := by
  have hfold : ∀ (n : Nat) (l : List String) (st : List Block × List String),
      (∀ x ∈ st.1, P x.id) → (∀ c ∈ l, P c) →
      ∀ x ∈ (l.foldl (fun st c => collectNestedF m.allBlocksMap n c st) st).1, P x.id := by
    intro n l
    induction l with
    | nil => intro st h1 _ x hx; exact h1 x hx
    | cons c cs ihl =>
      intro st h1 h2 x hx
      rw [List.foldl_cons] at hx
      exact ihl (collectNestedF m.allBlocksMap n c st)
        (collectNestedF_sound m.allBlocksMap P hcl n c st (h2 c (List.mem_cons_self c cs)) h1)
        (fun d hd => h2 d (List.mem_cons_of_mem c hd)) x hx
  have houter : ∀ (n : Nat) (l : List Block) (st : List Block × List String),
      (∀ x ∈ st.1, P x.id) → (∀ b ∈ l, P b.id ∧ ∀ c ∈ childIdsOf b, P c) →
      ∀ x ∈ (l.foldl
          (fun st b =>
            if b.type == "row" then
              match childrenOf b with
              | some cl => cl.foldl (fun st c => collectNestedF m.allBlocksMap n c st) st
              | none => st
            else st) st).1, P x.id := by
    intro n l
    induction l with
    | nil => intro st h1 _ x hx; exact h1 x hx
    | cons b bs ihb =>
      intro st h1 h2 x hx
      rw [List.foldl_cons] at hx
      refine ihb _ ?_ (fun d hd => h2 d (List.mem_cons_of_mem b hd)) x hx
      by_cases hrow : (b.type == "row") = true
      · simp only [hrow, if_true]
        cases hc : childrenOf b with
        | none => exact h1
        | some cl =>
          refine hfold n cl st h1 ?_
          intro c hcc
          exact (h2 b (List.mem_cons_self b bs)).2 c (by simp [childIdsOf, hc, hcc])
      · simp only [hrow]
        exact h1
  show ∀ x ∈ getAllBlocksFlatCore (m.allBlocksMap.length + m.blocks.length + 1 + 1)
      m.allBlocksMap m.blocks, P x.id
  rw [getAllBlocksFlatCore]
  rw [if_neg (by simpa [List.isEmpty_iff] using hmp)]
  exact houter _ m.blocks (m.blocks, m.blocks.map (fun b => b.id))
    (fun x hx => (hbs x hx).1) hbs

/-- Claim C5, amended. add with an owner id that resolves to a
non-container block leaves the top-level tree unchanged and the new id
absent from getAllBlocksFlat, but the operation is not rejected without
effect: the new block is created in the id map before the owner check,
so the returned id resolves through get, a history snapshot is pushed,
the redo stack is emptied, and the usual notifications fire. No
InvalidOwner failure is reported. -/
theorem c5_add_invalid_owner (m : EmailModel) (inp : BlockInput) (ownerId fresh : String)
    (cb : Block)
    (hne : ownerId ≠ "") (hdiff : ownerId ≠ fresh)
    (hfreshmap : assocGet m.allBlocksMap fresh = none)
    (hown : assocGet m.allBlocksMap ownerId = some cb) (hnrow : cb.type ≠ "row")
    (hunref : ∀ p ∈ m.allBlocksMap, p.2.id ≠ fresh ∧ fresh ∉ childIdsOf p.2)
    (hbl : ∀ b ∈ m.blocks, b.id ≠ fresh ∧ fresh ∉ childIdsOf b) :
    (addBlock m inp (some ownerId) fresh).1.blocks = m.blocks ∧
      assocGet (addBlock m inp (some ownerId) fresh).1.allBlocksMap fresh =
        some { id := fresh, type := inp.type, data := inp.data, parentId := some ownerId } ∧
      getBlockById (addBlock m inp (some ownerId) fresh).1 fresh =
        some { id := fresh, type := inp.type, data := inp.data, parentId := some ownerId } ∧
      (∀ x ∈ getAllBlocksFlat (addBlock m inp (some ownerId) fresh).1, x.id ≠ fresh) ∧
      (addBlock m inp (some ownerId) fresh).1.undoStack = pushCap m.blocks m.undoStack ∧
      (addBlock m inp (some ownerId) fresh).1.redoStack = [] ∧
      (addBlock m inp (some ownerId) fresh).2 = [Event.undoStateChanged, Event.blocksChanged] := by
  have hfalsy : jsFalsy (some ownerId) = false := by simp [jsFalsy, hne]
  have hset : assocSet m.allBlocksMap fresh
      { id := fresh, type := inp.type, data := inp.data, parentId := some ownerId } =
      m.allBlocksMap ++
        [(fresh, { id := fresh, type := inp.type, data := inp.data, parentId := some ownerId })] :=
    assocSet_not_mem _ _ _ hfreshmap
  have hget : ∀ k, k ≠ fresh →
      assocGet (m.allBlocksMap ++
        [(fresh, { id := fresh, type := inp.type, data := inp.data, parentId := some ownerId })]) k =
        assocGet m.allBlocksMap k := by
    intro k hk
    rw [assocGet_append]
    cases hg : assocGet m.allBlocksMap k with
    | some v => rfl
    | none =>
      rw [assocGet_cons]
      have : (fresh == k) = false := by
        simp only [beq_eq_false_iff_ne, ne_eq]
        exact fun hEq => hk hEq.symm
      rw [this]
      rfl
  have hgetfresh : assocGet (m.allBlocksMap ++
      [(fresh, { id := fresh, type := inp.type, data := inp.data, parentId := some ownerId })]) fresh =
      some { id := fresh, type := inp.type, data := inp.data, parentId := some ownerId } := by
    rw [assocGet_append, hfreshmap, assocGet_cons]
    simp
  have hres : addBlock m inp (some ownerId) fresh =
      ({ m with
          allBlocksMap := m.allBlocksMap ++
            [(fresh, { id := fresh, type := inp.type, data := inp.data, parentId := some ownerId })],
          undoStack := pushCap m.blocks m.undoStack, redoStack := [] },
        [Event.undoStateChanged, Event.blocksChanged]) := by
    unfold addBlock saveState
    dsimp only
    rw [hfalsy]
    simp only [Bool.false_eq_true, if_false]
    rw [hset]
    have hown2 : getBlockById { m with
        allBlocksMap := m.allBlocksMap ++
          [(fresh, { id := fresh, type := inp.type, data := inp.data, parentId := some ownerId })],
        undoStack := pushCap m.blocks m.undoStack, redoStack := [] } ownerId = some cb := by
      refine getBlockById_of_assocGet _ ownerId cb ?_
      show assocGet (m.allBlocksMap ++ _) ownerId = some cb
      rw [hget ownerId hdiff, hown]
    rw [hown2]
    dsimp only
    have : (cb.type == "row") = false := by
      simp only [beq_eq_false_iff_ne, ne_eq]
      exact hnrow
    rw [this]
    rfl
  rw [hres]
  refine ⟨rfl, hgetfresh, ?_, ?_, rfl, rfl, rfl⟩
  · exact getBlockById_of_assocGet _ fresh _ hgetfresh
  · refine getAllBlocksFlat_sound _ (fun x => x ≠ fresh) (by simp) ?_ ?_
    · intro k b hk hg
      rw [show ({ m with
          allBlocksMap := m.allBlocksMap ++
            [(fresh, { id := fresh, type := inp.type, data := inp.data, parentId := some ownerId })],
          undoStack := pushCap m.blocks m.undoStack, redoStack := [] } : EmailModel).allBlocksMap =
          m.allBlocksMap ++
            [(fresh, { id := fresh, type := inp.type, data := inp.data, parentId := some ownerId })] from rfl,
        hget k hk] at hg
      have h2 := hunref (k, b) (assocGet_mem _ _ _ hg)
      exact ⟨h2.1, fun c hc hEq => h2.2 (hEq ▸ hc)⟩
    · intro b hb
      have h2 := hbl b hb
      exact ⟨h2.1, fun c hc hEq => h2.2 (hEq ▸ hc)⟩

/-- Claim C5 witness: the amended invalid-owner law at a concrete state
whose owner is a text block. -/
theorem c5_witness :
    ("c" : String) ≠ "" ∧
      ((addBlock exModel { type := "button", data := [] } (some "c") "n").1.blocks = exModel.blocks ∧
        assocGet (addBlock exModel { type := "button", data := [] } (some "c") "n").1.allBlocksMap "n" =
          some { id := "n", type := "button", data := [], parentId := some "c" } ∧
        getBlockById (addBlock exModel { type := "button", data := [] } (some "c") "n").1 "n" =
          some { id := "n", type := "button", data := [], parentId := some "c" } ∧
        (∀ x ∈ getAllBlocksFlat (addBlock exModel { type := "button", data := [] } (some "c") "n").1,
          x.id ≠ "n") ∧
        (addBlock exModel { type := "button", data := [] } (some "c") "n").1.undoStack =
          pushCap exModel.blocks exModel.undoStack ∧
        (addBlock exModel { type := "button", data := [] } (some "c") "n").1.redoStack = [] ∧
        (addBlock exModel { type := "button", data := [] } (some "c") "n").2 =
          [Event.undoStateChanged, Event.blocksChanged]) :=
  ⟨by decide,
    c5_add_invalid_owner exModel { type := "button", data := [] } "c" "n" exChild
      (by decide) (by decide) (by decide) (by decide) (by decide) (by decide) (by decide)⟩

/-- Claim C5 counterexample: adding with a nonexistent owner id still
creates a block that resolves through getBlockById, where the claim
demands that no block be created anywhere. -/
theorem c5_counterexample :
    getBlockById (addBlock exModel { type := "text", data := [] } (some "zzz") "n").1 "n" =
        some { id := "n", type := "text", data := [], parentId := some "zzz" } ∧
      (addBlock exModel { type := "text", data := [] } (some "zzz") "n").1.blocks =
        exModel.blocks := by
  refine ⟨by decide, by decide⟩

theorem mapIf_id (bs : List Block) (pid : String) (nb : Block)
    (h : ∀ b ∈ bs, b.id ≠ pid) :
    bs.map (fun x => if x.id == pid then nb else x) = bs := by
  induction bs with
  | nil => rfl
  | cons b rest ih =>
    rw [List.map_cons]
    have hb : (b.id == pid) = false := by
      simp only [beq_eq_false_iff_ne, ne_eq]
      exact h b (List.mem_cons_self b rest)
    rw [hb]
    simp only [Bool.false_eq_true, if_false, List.cons.injEq, true_and]
    exact ih (fun x hx => h x (List.mem_cons_of_mem b hx))

theorem setBlockEverywhere_assocGet_ne (m : EmailModel) (bid : String) (nb : Block)
    (k : String) (hk : k ≠ bid) :
    assocGet (setBlockEverywhere m bid nb).allBlocksMap k = assocGet m.allBlocksMap k := by
  show assocGet (m.allBlocksMap.map (fun p => if p.1 == bid then (p.1, nb) else p)) k =
    assocGet m.allBlocksMap k
  induction m.allBlocksMap with
  | nil => rfl
  | cons p ps ih =>
    rw [List.map_cons, assocGet_cons, assocGet_cons]
    by_cases hp : (p.1 == bid) = true
    · have hpk : (p.1 == k) = false := by
        have : p.1 = bid := by simpa using hp
        simp only [beq_eq_false_iff_ne, ne_eq, this]
        exact fun hEq => hk hEq.symm
      rw [hp]
      simp only [if_true, hpk]
      simpa [hpk] using ih
    · have hp2 : (p.1 == bid) = false := by simpa using hp
      rw [hp2]
      simp only [Bool.false_eq_true, if_false]
      by_cases hpk : (p.1 == k) = true
      · rw [hpk]
        simp
      · have hpk2 : (p.1 == k) = false := by simpa using hpk
        rw [hpk2]
        simpa [hpk2] using ih

theorem setBlockEverywhere_keys (m : EmailModel) (bid : String) (nb : Block) :
    (setBlockEverywhere m bid nb).allBlocksMap.map Prod.fst =
      m.allBlocksMap.map Prod.fst := by
  show (m.allBlocksMap.map (fun p => if p.1 == bid then (p.1, nb) else p)).map Prod.fst = _
  rw [List.map_map]
  refine List.map_congr_left ?_
  intro p _
  show (if (p.1 == bid) = true then (p.1, nb) else p).1 = p.1
  split <;> rfl

theorem detachBlock_mapKeys (m1 : EmailModel) (block : Block) (bid : String) :
    (detachBlock m1 block bid).allBlocksMap.map Prod.fst =
      m1.allBlocksMap.map Prod.fst := by
  unfold detachBlock
  split
  · rfl
  · split
    · rfl
    · split
      · split
        · rw [setBlockEverywhere_keys]
        · rfl
      · rfl

theorem clearSelIfRemoved_mapKeys (m3 : EmailModel) (bid : String) :
    (clearSelIfRemoved m3 bid).1.allBlocksMap = m3.allBlocksMap := by
  unfold clearSelIfRemoved
  split <;> rfl

theorem removeBlockF_mapKeys (fuel : Nat) :
    ∀ (m : EmailModel) (bid : String),
      (removeBlockF fuel m bid).1.allBlocksMap.map Prod.fst =
        m.allBlocksMap.map Prod.fst := by
  induction fuel with
  | zero => intro m bid; rfl
  | succ n ih =>
    intro m bid
    rw [removeBlockF]
    dsimp only
    split
    · rfl
    · rename_i block heq
      have hfold : ∀ (l : List String) (st : EmailModel × List Event),
          ((l.foldl (fun st cid =>
            ((removeBlockF n st.1 cid).1, st.2 ++ (removeBlockF n st.1 cid).2)) st).1).allBlocksMap.map Prod.fst =
            st.1.allBlocksMap.map Prod.fst := by
        intro l
        induction l with
        | nil => intro st; rfl
        | cons c cs ihl =>
          intro st
          rw [List.foldl_cons]
          rw [ihl]
          exact ih st.1 c
      rw [clearSelIfRemoved_mapKeys]
      split
      · rw [hfold]
        exact detachBlock_mapKeys _ block bid
      · exact detachBlock_mapKeys _ block bid

theorem assocGet_isSome_of_keys {α : Type} (l1 l2 : List (String × α))
    (h : l1.map Prod.fst = l2.map Prod.fst) (k : String) :
    (assocGet l1 k).isSome = (assocGet l2 k).isSome := by
  induction l1 generalizing l2 with
  | nil =>
    cases l2 with
    | nil => rfl
    | cons q qs => simp at h
  | cons p ps ih =>
    cases l2 with
    | nil => simp at h
    | cons q qs =>
      rw [List.map_cons, List.map_cons] at h
      obtain ⟨h1, h2⟩ := List.cons.injEq _ _ _ _ ▸ h
      rw [assocGet_cons, assocGet_cons, h1]
      by_cases hq : (q.1 == k) = true
      · rw [hq]
        rfl
      · have hq2 : (q.1 == k) = false := by simpa using hq
        rw [hq2]
        simp only [Bool.false_eq_true, if_false]
        exact ih qs h2


mutual

theorem flattenT_ids (p : Option String) (t : BTree) :
    (flattenT p t).map Block.id = t.ids := by
  cases t with
  | node i ty fs ks =>
    rw [flattenT, BTree.ids, List.map_cons]
    rw [flattenL_ids (some i) ks]
    rfl

theorem flattenL_ids (p : Option String) (ks : List BTree) :
    (flattenL p ks).map Block.id = idsL ks := by
  cases ks with
  | nil => rfl
  | cons t ts =>
    rw [flattenL, idsL, List.map_append, flattenT_ids p t, flattenL_ids p ts]

end

theorem flattenL_append (p : Option String) (l1 l2 : List BTree) :
    flattenL p (l1 ++ l2) = flattenL p l1 ++ flattenL p l2 := by
  induction l1 with
  | nil => rfl
  | cons t ts ih => rw [List.cons_append, flattenL, flattenL, ih, List.append_assoc]

theorem childrenOf_nodeBlock (p : Option String) (i ty : String)
    (fs : List (String × Val)) (ks : List BTree)
    (hfs : ∀ q ∈ fs, q.1 ≠ "children") :
    childrenOf (nodeBlock p (.node i ty fs ks)) =
      if ty == "row" then some (ks.map BTree.rootId) else none := by
  have hnone : assocGet fs "children" = (none : Option Val) := by
    unfold assocGet
    rw [List.find?_eq_none.mpr]
    · rfl
    · intro q hq
      simp only [Bool.not_eq_true, beq_eq_false_iff_ne, ne_eq]
      exact hfs q hq
  unfold childrenOf nodeBlock
  by_cases hty : (ty == "row") = true
  · rw [if_pos hty]
    dsimp only
    rw [if_pos hty, assocGet_append, hnone, assocGet_cons]
    simp
  · have hty2 : (ty == "row") = false := by simpa using hty
    rw [hty2]
    dsimp only
    rw [hty2]
    simp only [Bool.false_eq_true, if_false, hnone]

theorem rootId_mem_idsL (ks : List BTree) (k : BTree) (hk : k ∈ ks) :
    k.rootId ∈ idsL ks := by
  induction ks with
  | nil => simp at hk
  | cons t ts ih =>
    rw [idsL, List.mem_append]
    rcases List.mem_cons.mp hk with h1 | h1
    · left
      subst h1
      cases k with
      | node i ty fs ks2 => rw [BTree.rootId, BTree.ids]; exact List.mem_cons_self _ _
    · right
      exact ih h1

mutual

theorem childIds_sub (p : Option String) (t : BTree) (b : Block)
    (hw : t.wfB = true) (hb : b ∈ flattenT p t) :
    ∀ c ∈ childIdsOf b, c ∈ t.ids := by
  cases t with
  | node i ty fs ks =>
    rw [BTree.wfB] at hw
    simp only [Bool.and_eq_true] at hw
    rw [flattenT] at hb
    rcases List.mem_cons.mp hb with hb1 | hb1
    · subst hb1
      intro c hc
      rw [childIdsOf, childrenOf_nodeBlock p i ty fs ks] at hc
      · rw [BTree.ids]
        by_cases hty : (ty == "row") = true
        · rw [if_pos hty] at hc
          simp only [Option.getD_some] at hc
          obtain ⟨k, hk, hkr⟩ := List.mem_map.mp hc
          right
          subst hkr
          exact rootId_mem_idsL ks k hk
        · have hty2 : (ty == "row") = false := by simpa using hty
          rw [hty2] at hc
          simp at hc
      · intro q hq
        have := hw.1.1.2
        rw [List.all_eq_true] at this
        have h2 := this q hq
        simpa using h2
    · intro c hc
      rw [BTree.ids]
      right
      exact childIds_subL (some i) ks b hw.2 hb1 c hc

theorem childIds_subL (p : Option String) (ks : List BTree) (b : Block)
    (hw : wfLB ks = true) (hb : b ∈ flattenL p ks) :
    ∀ c ∈ childIdsOf b, c ∈ idsL ks := by
  cases ks with
  | nil => simp [flattenL] at hb
  | cons t ts =>
    rw [wfLB, Bool.and_eq_true] at hw
    rw [flattenL] at hb
    rcases List.mem_append.mp hb with hb1 | hb1
    · intro c hc
      rw [idsL, List.mem_append]
      left
      exact childIds_sub p t b hw.1 hb1 c hc
    · intro c hc
      rw [idsL, List.mem_append]
      right
      exact childIds_subL p ts b hw.2 hb1 c hc

end

theorem clearSelIfRemoved_blocks (m3 : EmailModel) (bid : String) :
    (clearSelIfRemoved m3 bid).1.blocks = m3.blocks := by
  unfold clearSelIfRemoved
  split <;> rfl

theorem foldRemove_fst (fuel : Nat) (l : List String) :
    ∀ (st : EmailModel × List Event),
      (l.foldl (fun st cid =>
          ((removeBlockF fuel st.1 cid).1, st.2 ++ (removeBlockF fuel st.1 cid).2)) st).1 =
        l.foldl (fun mm cid => (removeBlockF fuel mm cid).1) st.1 := by
  induction l with
  | nil => intro st; rfl
  | cons c cs ih =>
    intro st
    rw [List.foldl_cons, List.foldl_cons]
    exact ih _

mutual

theorem IntactT_congr (mp1 mp2 : List (String × Block)) (p : Option String) (t : BTree)
    (h : ∀ k ∈ t.ids, assocGet mp2 k = assocGet mp1 k) (hi : IntactT mp1 p t) :
    IntactT mp2 p t := by
  cases t with
  | node i ty fs ks =>
    rw [IntactT] at hi ⊢
    refine ⟨?_, ?_⟩
    · rw [h i (by rw [BTree.ids]; exact List.mem_cons_self _ _)]
      exact hi.1
    · refine IntactL_congr mp1 mp2 (some i) ks ?_ hi.2
      intro k hk
      exact h k (by rw [BTree.ids]; exact List.mem_cons_of_mem _ hk)

theorem IntactL_congr (mp1 mp2 : List (String × Block)) (p : Option String) (ks : List BTree)
    (h : ∀ k ∈ idsL ks, assocGet mp2 k = assocGet mp1 k) (hi : IntactL mp1 p ks) :
    IntactL mp2 p ks := by
  cases ks with
  | nil => exact trivial
  | cons t ts =>
    rw [IntactL] at hi ⊢
    refine ⟨?_, ?_⟩
    · refine IntactT_congr mp1 mp2 p t ?_ hi.1
      intro k hk
      exact h k (by rw [idsL]; exact List.mem_append_left _ hk)
    · refine IntactL_congr mp1 mp2 p ts ?_ hi.2
      intro k hk
      exact h k (by rw [idsL]; exact List.mem_append_right _ hk)

end

theorem BTree.size_pos (t : BTree) : 1 ≤ t.size := by
  cases t with
  | node i ty fs ks => rw [BTree.size]; omega

theorem detachBlock_root (M1 : EmailModel) (block : Block) (bid : String)
    (hpar : block.parentId = none) :
    (detachBlock M1 block bid).blocks = M1.blocks.filter (fun b => b.id != bid) ∧
      (detachBlock M1 block bid).allBlocksMap = M1.allBlocksMap := by
  unfold detachBlock
  rw [hpar]
  exact ⟨rfl, rfl⟩

theorem detachBlock_nested (M1 : EmailModel) (block : Block) (bid pid : String)
    (hpar : block.parentId = some pid) (hpid : pid ≠ "")
    (pb : Block) (hpb : assocGet M1.allBlocksMap pid = some pb)
    (hbk : ∀ b ∈ M1.blocks, b.id ≠ pid) :
    (detachBlock M1 block bid).blocks = M1.blocks ∧
      ∀ k, k ≠ pid →
        assocGet (detachBlock M1 block bid).allBlocksMap k = assocGet M1.allBlocksMap k := by
  unfold detachBlock
  rw [hpar]
  have hfalsy : jsFalsy (some pid) = false := by simp [jsFalsy, hpid]
  rw [hfalsy]
  simp only [Bool.false_eq_true, if_false]
  rw [getBlockById_of_assocGet M1 pid pb hpb]
  dsimp only
  cases hcb : childrenOf pb with
  | some L =>
    dsimp only
    constructor
    · show (setBlockEverywhere M1 pid _).blocks = M1.blocks
      exact mapIf_id M1.blocks pid _ hbk
    · intro k hk
      exact setBlockEverywhere_assocGet_ne M1 pid _ k hk
  | none => exact ⟨rfl, fun k _ => rfl⟩

mutual

theorem remT (t : BTree) (pid : String) (M : EmailModel) (n : Nat)
    (hfuel : t.size ≤ n + 1)
    (hw : t.wfB = true)
    (hnd : (pid :: t.ids).Nodup)
    (hpid : pid ≠ "")
    (hint : IntactT M.allBlocksMap (some pid) t)
    (hp : (assocGet M.allBlocksMap pid).isSome = true)
    (hbk : ∀ b ∈ M.blocks, b.id ≠ pid)
    (hbt : ∀ b ∈ M.blocks, b.id ∉ t.ids) :
    (removeBlockF (n + 1) M t.rootId).1.blocks = M.blocks ∧
      ∀ k, k ∉ t.ids → k ≠ pid →
        assocGet (removeBlockF (n + 1) M t.rootId).1.allBlocksMap k =
          assocGet M.allBlocksMap k := by
  cases t with
  | node i ty fs ks =>
    rw [BTree.wfB, Bool.and_eq_true, Bool.and_eq_true, Bool.and_eq_true] at hw
    obtain ⟨⟨⟨hwi, hwfs⟩, hwrow⟩, hwks⟩ := hw
    have hids : BTree.ids (.node i ty fs ks) = i :: idsL ks := rfl
    rw [hids] at hnd hbt ⊢
    have hpid_notin : pid ∉ i :: idsL ks := (List.nodup_cons.mp hnd).1
    have hnd2 : (i :: idsL ks).Nodup := (List.nodup_cons.mp hnd).2
    have hine : i ≠ "" := by simpa using hwi
    have hfs2 : ∀ q ∈ fs, q.1 ≠ "children" := by
      intro q hq
      have := List.all_eq_true.mp hwfs q hq
      simpa using this
    rw [IntactT] at hint
    have hblock : assocGet M.allBlocksMap i =
        some (nodeBlock (some pid) (.node i ty fs ks)) := hint.1
    rw [BTree.rootId, removeBlockF]
    dsimp only
    rw [saveState]
    dsimp only
    rw [getBlockById_of_assocGet
      { M with undoStack := pushCap M.blocks M.undoStack, redoStack := [] } i _ hblock]
    dsimp only
    obtain ⟨pb, hpb⟩ := Option.isSome_iff_exists.mp hp
    have hdet := detachBlock_nested
      { M with undoStack := pushCap M.blocks M.undoStack, redoStack := [] }
      (nodeBlock (some pid) (.node i ty fs ks)) i pid rfl hpid pb hpb hbk
    have hchild : childrenOf (nodeBlock (some pid) (.node i ty fs ks)) =
        if ty == "row" then some (ks.map BTree.rootId) else none :=
      childrenOf_nodeBlock (some pid) i ty fs ks hfs2
    have htype : (nodeBlock (some pid) (.node i ty fs ks)).type = ty := rfl
    by_cases hty : (ty == "row") = true
    · rw [if_pos hty] at hchild
      rw [htype, hty, hchild]
      simp only [Option.isSome_some, Bool.and_self, if_true, childIdsOf, Option.getD_some]
      rw [foldRemove_fst]
      dsimp only
      rw [hchild]
      simp only [Option.getD_some]
      have hrem := remL ks i
        (detachBlock { M with undoStack := pushCap M.blocks M.undoStack, redoStack := [] }
          (nodeBlock (some pid) (.node i ty fs ks)) i) n
        (by rw [BTree.size] at hfuel; omega)
        hwks hnd2 hine
        (by
          refine IntactL_congr M.allBlocksMap _ (some i) ks ?_ hint.2
          intro k hk
          refine hdet.2 k ?_
          intro hEq
          exact hpid_notin (hEq ▸ List.mem_cons_of_mem i hk))
        (by
          rw [hdet.2 i (by
            intro hEq
            exact hpid_notin (hEq ▸ List.mem_cons_self i (idsL ks)))]
          rw [hblock]
          rfl)
        (by
          rw [hdet.1]
          intro b hb
          exact fun hEq => hbt b hb (hEq ▸ List.mem_cons_self i (idsL ks)))
        (by
          rw [hdet.1]
          intro b hb
          exact fun hmem => hbt b hb (List.mem_cons_of_mem i hmem))
      constructor
      · rw [clearSelIfRemoved_blocks, hrem.1, hdet.1]
      · intro k hk hkp
        have hki : k ≠ i := by
          intro hEq
          exact hk (hEq ▸ List.mem_cons_self i (idsL ks))
        have hkks : k ∉ idsL ks := fun hmem => hk (List.mem_cons_of_mem i hmem)
        rw [clearSelIfRemoved_mapKeys, hrem.2 k hkks hki, hdet.2 k hkp]
    · have hempty : ks.isEmpty = true := by
        rcases Bool.or_eq_true_iff.mp hwrow with h1 | h1
        · exact h1
        · exact absurd h1 hty
      have hty2 : (ty == "row") = false := by simpa using hty
      rw [if_neg hty] at hchild
      rw [htype, hty2, hchild]
      simp only [Bool.false_and, Bool.false_eq_true, if_false]
      constructor
      · rw [clearSelIfRemoved_blocks, hdet.1]
      · intro k hk hkp
        rw [clearSelIfRemoved_mapKeys, hdet.2 k hkp]

theorem remL (ks : List BTree) (pid : String) (M : EmailModel) (n : Nat)
    (hfuel : sizeL ks ≤ n)
    (hw : wfLB ks = true)
    (hnd : (pid :: idsL ks).Nodup)
    (hpid : pid ≠ "")
    (hint : IntactL M.allBlocksMap (some pid) ks)
    (hp : (assocGet M.allBlocksMap pid).isSome = true)
    (hbk : ∀ b ∈ M.blocks, b.id ≠ pid)
    (hbt : ∀ b ∈ M.blocks, b.id ∉ idsL ks) :
    ((ks.map BTree.rootId).foldl (fun mm cid => (removeBlockF n mm cid).1) M).blocks =
        M.blocks ∧
      ∀ k, k ∉ idsL ks → k ≠ pid →
        assocGet
            ((ks.map BTree.rootId).foldl (fun mm cid => (removeBlockF n mm cid).1) M).allBlocksMap
            k =
          assocGet M.allBlocksMap k := by
  cases ks with
  | nil => exact ⟨rfl, fun k _ _ => rfl⟩
  | cons t ts =>
    have hsz := BTree.size_pos t
    rw [sizeL] at hfuel
    rw [wfLB, Bool.and_eq_true] at hw
    have hidstts : idsL (t :: ts) = t.ids ++ idsL ts := rfl
    rw [hidstts] at hnd hbt
    have hnd_parts := List.nodup_cons.mp hnd
    have hnd_app := List.nodup_append.mp hnd_parts.2
    cases n with
    | zero => omega
    | succ n2 =>
      rw [List.map_cons, List.foldl_cons]
      have hT := remT t pid M n2 (by omega) hw.1
        (List.nodup_cons.mpr
          ⟨fun hmem => hnd_parts.1 (List.mem_append_left _ hmem), hnd_app.1⟩)
        hpid hint.1 hp hbk
        (fun b hb hmem => hbt b hb (List.mem_append_left _ hmem))
      have hkeys : ∀ k, (assocGet (removeBlockF (n2+1) M t.rootId).1.allBlocksMap k).isSome =
          (assocGet M.allBlocksMap k).isSome := by
        intro k
        exact assocGet_isSome_of_keys _ _ (removeBlockF_mapKeys (n2+1) M t.rootId) k
      have hL := remL ts pid (removeBlockF (n2+1) M t.rootId).1 (n2+1) (by omega) hw.2
        (List.nodup_cons.mpr
          ⟨fun hmem => hnd_parts.1 (List.mem_append_right _ hmem), hnd_app.2.1⟩)
        hpid
        (by
          refine IntactL_congr M.allBlocksMap _ (some pid) ts ?_ hint.2
          intro k hk
          refine hT.2 k ?_ ?_
          · intro hmem
            exact hnd_app.2.2 hmem hk
          · intro hEq
            exact hnd_parts.1 (hEq ▸ List.mem_append_right _ hk))
        (by rw [hkeys pid]; exact hp)
        (by rw [hT.1]; exact hbk)
        (by rw [hT.1]; intro b hb hmem; exact hbt b hb (List.mem_append_right _ hmem))
      constructor
      · rw [hL.1, hT.1]
      · intro k hk hkp
        have hk1 : k ∉ t.ids := fun hmem => hk (List.mem_append_left _ hmem)
        have hk2 : k ∉ idsL ts := fun hmem => hk (List.mem_append_right _ hmem)
        rw [hL.2 k hk2 hkp, hT.2 k hk1 hkp]

end

theorem idsL_append (l1 l2 : List BTree) : idsL (l1 ++ l2) = idsL l1 ++ idsL l2 := by
  induction l1 with
  | nil => rfl
  | cons t ts ih => rw [List.cons_append, idsL, idsL, ih, List.append_assoc]

mutual

theorem ids_length (t : BTree) : t.ids.length = t.size := by
  cases t with
  | node i ty fs ks =>
    rw [BTree.ids, BTree.size, List.length_cons, idsL_length ks]
    omega

theorem idsL_length (ks : List BTree) : (idsL ks).length = sizeL ks := by
  cases ks with
  | nil => rfl
  | cons t ts => rw [idsL, sizeL, List.length_append, ids_length t, idsL_length ts]

end

theorem buildMap_keys (f : List BTree) : (buildMap f).map Prod.fst = idsL f := by
  rw [buildMap, List.map_map]
  have : (Prod.fst ∘ fun b => (b.id, b)) = Block.id := rfl
  rw [this, flattenL_ids]

theorem assocGet_eq_none_of_not_mem_keys {α : Type} (l : List (String × α)) (k : String)
    (h : k ∉ l.map Prod.fst) : assocGet l k = none := by
  induction l with
  | nil => rfl
  | cons p ps ih =>
    rw [List.map_cons] at h
    rw [assocGet_cons]
    have hp : (p.1 == k) = false := by
      simp only [beq_eq_false_iff_ne, ne_eq]
      intro hEq
      exact h (hEq ▸ List.mem_cons_self _ _)
    rw [hp]
    simp only [Bool.false_eq_true, if_false]
    exact ih (fun hmem => h (List.mem_cons_of_mem _ hmem))

theorem assocGet_index (L : List Block) (hnd : (L.map Block.id).Nodup) (b : Block)
    (hb : b ∈ L) : assocGet (L.map (fun b => (b.id, b))) b.id = some b := by
  induction L with
  | nil => simp at hb
  | cons c cs ih =>
    rw [List.map_cons, assocGet_cons]
    rw [List.map_cons, List.nodup_cons] at hnd
    rcases List.mem_cons.mp hb with h1 | h1
    · subst h1
      simp
    · have hcb : (c.id == b.id) = false := by
        simp only [beq_eq_false_iff_ne, ne_eq]
        intro hEq
        exact hnd.1 (hEq ▸ List.mem_map_of_mem Block.id h1)
      rw [hcb]
      simp only [Bool.false_eq_true, if_false]
      exact ih hnd.2 h1

theorem assocGet_buildMap_mem (f : List BTree) (k : String) (b : Block)
    (h : assocGet (buildMap f) k = some b) : b ∈ flattenL none f ∧ b.id = k := by
  have hmem := assocGet_mem _ _ _ h
  rw [buildMap] at hmem
  obtain ⟨b2, hb2, hEq⟩ := List.mem_map.mp hmem
  obtain ⟨h1, h2⟩ := Prod.mk.injEq _ _ _ _ ▸ hEq
  exact ⟨h2 ▸ hb2, h2 ▸ h1⟩

theorem mem_flattenT_id (p : Option String) (t : BTree) (b : Block)
    (hb : b ∈ flattenT p t) : b.id ∈ t.ids := by
  rw [← flattenT_ids p t]
  exact List.mem_map_of_mem Block.id hb

theorem mem_flattenL_id (p : Option String) (ks : List BTree) (b : Block)
    (hb : b ∈ flattenL p ks) : b.id ∈ idsL ks := by
  rw [← flattenL_ids p ks]
  exact List.mem_map_of_mem Block.id hb

theorem wfLB_append (l1 l2 : List BTree) :
    wfLB (l1 ++ l2) = (wfLB l1 && wfLB l2) := by
  induction l1 with
  | nil => rw [List.nil_append, wfLB, Bool.true_and]
  | cons t ts ih =>
    rw [List.cons_append, wfLB, wfLB, ih, Bool.and_assoc]

mutual

theorem IntactT_of_flatten (mp : List (String × Block)) (p : Option String) (t : BTree)
    (h : ∀ b ∈ flattenT p t, assocGet mp b.id = some b) : IntactT mp p t := by
  cases t with
  | node i ty fs ks =>
    rw [IntactT]
    constructor
    · have := h (nodeBlock p (.node i ty fs ks)) (by rw [flattenT]; exact List.mem_cons_self _ _)
      exact this
    · refine IntactL_of_flatten mp (some i) ks ?_
      intro b hb
      refine h b ?_
      rw [flattenT]
      exact List.mem_cons_of_mem _ hb

theorem IntactL_of_flatten (mp : List (String × Block)) (p : Option String) (ks : List BTree)
    (h : ∀ b ∈ flattenL p ks, assocGet mp b.id = some b) : IntactL mp p ks := by
  cases ks with
  | nil => exact trivial
  | cons t ts =>
    rw [IntactL]
    constructor
    · exact IntactT_of_flatten mp p t (fun b hb => h b (by rw [flattenL]; exact List.mem_append_left _ hb))
    · exact IntactL_of_flatten mp p ts (fun b hb => h b (by rw [flattenL]; exact List.mem_append_right _ hb))

end



theorem remRoot (t : BTree) (M : EmailModel) (n : Nat)
    (hfuel : t.size ≤ n + 1)
    (hw : t.wfB = true)
    (hnd : t.ids.Nodup)
    (hint : IntactT M.allBlocksMap none t)
    (hbt : ∀ b ∈ M.blocks, b.id ∉ idsL t.kids) :
    (removeBlockF (n + 1) M t.rootId).1.blocks =
        M.blocks.filter (fun b => b.id != t.rootId) ∧
      ∀ k, k ∉ t.ids →
        assocGet (removeBlockF (n + 1) M t.rootId).1.allBlocksMap k =
          assocGet M.allBlocksMap k := by
  cases t with
  | node i ty fs ks =>
    rw [BTree.wfB, Bool.and_eq_true, Bool.and_eq_true, Bool.and_eq_true] at hw
    obtain ⟨⟨⟨hwi, hwfs⟩, hwrow⟩, hwks⟩ := hw
    have hids : BTree.ids (.node i ty fs ks) = i :: idsL ks := rfl
    have hkids : BTree.kids (.node i ty fs ks) = ks := rfl
    rw [hids] at hnd ⊢
    rw [hkids] at hbt
    have hine : i ≠ "" := by simpa using hwi
    have hfs2 : ∀ q ∈ fs, q.1 ≠ "children" := by
      intro q hq
      have := List.all_eq_true.mp hwfs q hq
      simpa using this
    rw [IntactT] at hint
    have hblock : assocGet M.allBlocksMap i =
        some (nodeBlock none (.node i ty fs ks)) := hint.1
    rw [BTree.rootId, removeBlockF]
    dsimp only
    rw [saveState]
    dsimp only
    rw [getBlockById_of_assocGet
      { M with undoStack := pushCap M.blocks M.undoStack, redoStack := [] } i _ hblock]
    dsimp only
    have hdet := detachBlock_root
      { M with undoStack := pushCap M.blocks M.undoStack, redoStack := [] }
      (nodeBlock none (.node i ty fs ks)) i rfl
    have hchild : childrenOf (nodeBlock none (.node i ty fs ks)) =
        if ty == "row" then some (ks.map BTree.rootId) else none :=
      childrenOf_nodeBlock none i ty fs ks hfs2
    have htype : (nodeBlock none (.node i ty fs ks)).type = ty := rfl
    by_cases hty : (ty == "row") = true
    · rw [if_pos hty] at hchild
      rw [htype, hty, hchild]
      simp only [Option.isSome_some, Bool.and_self, if_true, childIdsOf, Option.getD_some]
      rw [foldRemove_fst]
      dsimp only
      rw [hchild]
      simp only [Option.getD_some]
      have hrem := remL ks i
        (detachBlock { M with undoStack := pushCap M.blocks M.undoStack, redoStack := [] }
          (nodeBlock none (.node i ty fs ks)) i) n
        (by rw [BTree.size] at hfuel; omega)
        hwks hnd hine
        (by
          refine IntactL_congr M.allBlocksMap _ (some i) ks ?_ hint.2
          intro k hk
          rw [hdet.2])
        (by
          rw [hdet.2]
          show (assocGet M.allBlocksMap i).isSome = true
          rw [hblock]
          rfl)
        (by
          rw [hdet.1]
          intro b hb
          have := List.mem_filter.mp hb
          simpa using this.2)
        (by
          rw [hdet.1]
          intro b hb
          exact hbt b (List.mem_filter.mp hb).1)
      constructor
      · rw [clearSelIfRemoved_blocks, hrem.1, hdet.1]
      · intro k hk
        have hki : k ≠ i := by
          intro hEq
          exact hk (hEq ▸ List.mem_cons_self i (idsL ks))
        have hkks : k ∉ idsL ks := fun hmem => hk (List.mem_cons_of_mem i hmem)
        rw [clearSelIfRemoved_mapKeys, hrem.2 k hkks hki, hdet.2]
    · have hty2 : (ty == "row") = false := by simpa using hty
      rw [if_neg hty] at hchild
      rw [htype, hty2, hchild]
      simp only [Bool.false_and, Bool.false_eq_true, if_false]
      constructor
      · rw [clearSelIfRemoved_blocks, hdet.1]
      · intro k hk
        rw [clearSelIfRemoved_mapKeys, hdet.2]

theorem ids_eq_root_cons (t : BTree) : t.ids = t.rootId :: idsL t.kids := by
  cases t with
  | node i ty fs ks => rfl

theorem rootId_mem_ids (t : BTree) : t.rootId ∈ t.ids := by
  rw [ids_eq_root_cons]
  exact List.mem_cons_self _ _

theorem nodeBlock_mem_flattenT (p : Option String) (t : BTree) :
    nodeBlock p t ∈ flattenT p t := by
  cases t with
  | node i ty fs ks =>
    rw [flattenT]
    exact List.mem_cons_self _ _

theorem wfLB_mem (l : List BTree) (hw : wfLB l = true) (t : BTree) (ht : t ∈ l) :
    t.wfB = true := by
  induction l with
  | nil => simp at ht
  | cons s ss ih =>
    rw [wfLB, Bool.and_eq_true] at hw
    rcases List.mem_cons.mp ht with h1 | h1
    · exact h1 ▸ hw.1
    · exact ih hw.2 h1

theorem nodeBlock_id (p : Option String) (t : BTree) : (nodeBlock p t).id = t.rootId := by
  cases t with
  | node i ty fs ks => rfl

theorem ids_sub_idsL (l : List BTree) (T : BTree) (hT : T ∈ l) :
    ∀ k ∈ T.ids, k ∈ idsL l := by
  induction l with
  | nil => simp at hT
  | cons s ss ih =>
    intro k hk
    rw [idsL, List.mem_append]
    rcases List.mem_cons.mp hT with h1 | h1
    · left
      exact h1 ▸ hk
    · right
      exact ih h1 k hk

/-- Claim C3, amended. Removing a top-level container with a nonempty
subtree removes the container id and every descendant id from the
reachable tree: none of them appears in getAllBlocksFlat afterwards.
The claim as stated fails in its second half: the id map is never
purged, so getBlockById still resolves the removed container and every
descendant instead of returning null. The state is given as any
well-formed forest with distinct ids. -/
theorem c3_remove_container (pre post : List BTree) (t : BTree)
    (sel : Option String) (us rs : List (List Block)) (tyf : Bool)
    (hw : wfLB (pre ++ t :: post) = true)
    (hnd : (idsL (pre ++ t :: post)).Nodup)
    (hrow : t.rootTy = "row") (hkids : t.kids.isEmpty = false) :
    (∀ x ∈ getAllBlocksFlat
        (removeBlock (buildModel (pre ++ t :: post) sel us rs tyf) t.rootId).1,
      x.id ∉ t.ids) ∧
      ∀ k ∈ t.ids,
        getBlockById
            (removeBlock (buildModel (pre ++ t :: post) sel us rs tyf) t.rootId).1 k ≠
          none := by
  have hwsplit : wfLB pre = true ∧ t.wfB = true ∧ wfLB post = true := by
    rw [wfLB_append, Bool.and_eq_true, wfLB, Bool.and_eq_true] at hw
    exact ⟨hw.1, hw.2.1, hw.2.2⟩
  have hidsf : idsL (pre ++ t :: post) = idsL pre ++ (t.ids ++ idsL post) := by
    rw [idsL_append, idsL]
  rw [hidsf] at hnd
  have hnd1 := List.nodup_append.mp hnd
  have hnd2 := List.nodup_append.mp hnd1.2.1
  have ndt : t.ids.Nodup := hnd2.1
  have hdisj_pre : ∀ k ∈ idsL pre, k ∉ t.ids := by
    intro k hk hmem
    exact hnd1.2.2 hk (List.mem_append_left _ hmem)
  have hdisj_post : ∀ k ∈ idsL post, k ∉ t.ids := by
    intro k hk hmem
    exact hnd2.2.2 hmem hk
  have hflatf : flattenL none (pre ++ t :: post) =
      flattenL none pre ++ (flattenT none t ++ flattenL none post) := by
    rw [flattenL_append, flattenL]
  have hindex : ∀ b ∈ flattenL none (pre ++ t :: post),
      assocGet (buildMap (pre ++ t :: post)) b.id = some b := by
    intro b hb
    refine assocGet_index _ ?_ b hb
    rw [flattenL_ids]
    rw [hidsf]
    exact hnd
  have hint : IntactT (buildModel (pre ++ t :: post) sel us rs tyf).allBlocksMap none t := by
    refine IntactT_of_flatten _ none t ?_
    intro b hb
    refine hindex b ?_
    rw [hflatf]
    exact List.mem_append_right _ (List.mem_append_left _ hb)
  have hbt : ∀ b ∈ (buildModel (pre ++ t :: post) sel us rs tyf).blocks,
      b.id ∉ idsL t.kids := by
    intro b hb
    obtain ⟨T, hT, hTb⟩ := List.mem_map.mp hb
    have hbid : b.id = T.rootId := by
      rw [← hTb]
      cases T with
      | node i2 ty2 fs2 ks2 => rfl
    have hsubk : ∀ k ∈ idsL t.kids, k ∈ t.ids := by
      intro k hk
      rw [ids_eq_root_cons]
      exact List.mem_cons_of_mem _ hk
    rcases List.mem_append.mp hT with h1 | h1
    · intro hmem
      exact hdisj_pre T.rootId (rootId_mem_idsL pre T h1) (hsubk _ (hbid ▸ hmem))
    · rcases List.mem_cons.mp h1 with h2 | h2
      · subst h2
        rw [hbid]
        intro hmem
        have := ids_eq_root_cons T
        rw [this] at ndt
        exact (List.nodup_cons.mp ndt).1 hmem
      · intro hmem
        refine hdisj_post T.rootId (rootId_mem_idsL post T h2) ?_
        exact hsubk _ (hbid ▸ hmem)
  have hmaplen : (buildModel (pre ++ t :: post) sel us rs tyf).allBlocksMap.length =
      (idsL (pre ++ t :: post)).length := by
    have := buildMap_keys (pre ++ t :: post)
    calc (buildModel (pre ++ t :: post) sel us rs tyf).allBlocksMap.length
        = ((buildMap (pre ++ t :: post)).map Prod.fst).length := by
          rw [List.length_map]; rfl
      _ = (idsL (pre ++ t :: post)).length := by rw [this]
  have hfuel : t.size ≤ (buildModel (pre ++ t :: post) sel us rs tyf).allBlocksMap.length + 1 := by
    rw [hmaplen, hidsf]
    rw [List.length_append, List.length_append]
    rw [← ids_length t]
    omega
  have hroot0 := remRoot t (buildModel (pre ++ t :: post) sel us rs tyf)
    (buildModel (pre ++ t :: post) sel us rs tyf).allBlocksMap.length
    hfuel hwsplit.2.1 ndt hint hbt
  have hroot : (removeBlock (buildModel (pre ++ t :: post) sel us rs tyf) t.rootId).1.blocks =
        (buildModel (pre ++ t :: post) sel us rs tyf).blocks.filter (fun b => b.id != t.rootId) ∧
      ∀ k, k ∉ t.ids →
        assocGet (removeBlock (buildModel (pre ++ t :: post) sel us rs tyf) t.rootId).1.allBlocksMap k =
          assocGet (buildModel (pre ++ t :: post) sel us rs tyf).allBlocksMap k := hroot0
  have hkeq : (removeBlock (buildModel (pre ++ t :: post) sel us rs tyf) t.rootId).1.allBlocksMap.map Prod.fst =
      (buildModel (pre ++ t :: post) sel us rs tyf).allBlocksMap.map Prod.fst :=
    removeBlockF_mapKeys ((buildModel (pre ++ t :: post) sel us rs tyf).allBlocksMap.length + 1)
      (buildModel (pre ++ t :: post) sel us rs tyf) t.rootId
  have hkeys : ∀ k,
      (assocGet (removeBlock (buildModel (pre ++ t :: post) sel us rs tyf) t.rootId).1.allBlocksMap k).isSome =
        (assocGet (buildModel (pre ++ t :: post) sel us rs tyf).allBlocksMap k).isSome := by
    intro k
    exact assocGet_isSome_of_keys _ _ hkeq k
  constructor
  · refine getAllBlocksFlat_sound _ (fun x => x ∉ t.ids) ?_ ?_ ?_
    · intro hnil
      have hkeq2 := hkeq
      rw [hnil] at hkeq2
      rw [show (buildModel (pre ++ t :: post) sel us rs tyf).allBlocksMap =
        buildMap (pre ++ t :: post) from rfl, buildMap_keys] at hkeq2
      have : t.rootId ∈ idsL (pre ++ t :: post) := by
        rw [hidsf]
        exact List.mem_append_right _ (List.mem_append_left _ (rootId_mem_ids t))
      rw [← hkeq2] at this
      simp at this
    · intro k b hk hg
      rw [hroot.2 k hk] at hg
      obtain ⟨hbmem, hbid⟩ := assocGet_buildMap_mem _ k b hg
      rw [hflatf] at hbmem
      constructor
      · rw [hbid]
        exact hk
      · rcases List.mem_append.mp hbmem with h1 | h1
        · intro c hc hmem
          exact hdisj_pre c (childIds_subL none pre b hwsplit.1 h1 c hc) hmem
        · rcases List.mem_append.mp h1 with h2 | h2
          · exact absurd (hbid ▸ mem_flattenT_id none t b h2) hk
          · intro c hc hmem
            exact hdisj_post c (childIds_subL none post b hwsplit.2.2 h2 c hc) hmem
    · intro b hb
      rw [hroot.1] at hb
      have hb2 := List.mem_filter.mp hb
      have hbne : b.id ≠ t.rootId := by simpa using hb2.2
      obtain ⟨T, hT, hTb⟩ := List.mem_map.mp hb2.1
      have hbmem : b ∈ flattenT none T := hTb ▸ nodeBlock_mem_flattenT none T
      rcases List.mem_append.mp hT with h1 | h1
      · constructor
        · intro hmem
          exact hdisj_pre b.id (ids_sub_idsL pre T h1 _ (mem_flattenT_id none T b hbmem)) hmem
        · intro c hc hmem
          have hcT := childIds_sub none T b (wfLB_mem pre hwsplit.1 T h1) hbmem c hc
          exact hdisj_pre c (ids_sub_idsL pre T h1 _ hcT) hmem
      · rcases List.mem_cons.mp h1 with h2 | h2
        · subst h2
          exact absurd (by rw [← hTb, nodeBlock_id]) hbne
        · constructor
          · intro hmem
            exact hdisj_post b.id (ids_sub_idsL post T h2 _ (mem_flattenT_id none T b hbmem)) hmem
          · intro c hc hmem
            have hcT := childIds_sub none T b (wfLB_mem post hwsplit.2.2 T h2) hbmem c hc
            exact hdisj_post c (ids_sub_idsL post T h2 _ hcT) hmem
  · intro k hk
    have hkex : ∃ b ∈ flattenT none t, b.id = k := by
      have : k ∈ (flattenT none t).map Block.id := by
        rw [flattenT_ids]
        exact hk
      obtain ⟨b, hb, hbk⟩ := List.mem_map.mp this
      exact ⟨b, hb, hbk⟩
    obtain ⟨b, hbmem, hbk⟩ := hkex
    have hsome : assocGet (buildModel (pre ++ t :: post) sel us rs tyf).allBlocksMap k = some b := by
      rw [← hbk]
      refine hindex b ?_
      rw [hflatf]
      exact List.mem_append_right _ (List.mem_append_left _ hbmem)
    have hisSome := hkeys k
    rw [hsome] at hisSome
    obtain ⟨b2, hb2⟩ := Option.isSome_iff_exists.mp hisSome
    rw [getBlockById_of_assocGet _ k b2 hb2]
    exact Option.some_ne_none b2



/-- Claim C3 witness: the amended removal law at a concrete one-row
forest. -/
theorem c3_witness :
    wfLB [exTree] = true ∧ (idsL [exTree]).Nodup ∧ exTree.rootTy = "row" ∧
      exTree.kids.isEmpty = false ∧
      ((∀ x ∈ getAllBlocksFlat
          (removeBlock (buildModel [exTree] none [] [] false) exTree.rootId).1,
        x.id ∉ exTree.ids) ∧
        ∀ k ∈ exTree.ids,
          getBlockById (removeBlock (buildModel [exTree] none [] [] false) exTree.rootId).1 k ≠
            none) :=
  ⟨by decide, by decide, by decide, by decide,
    c3_remove_container [] [] exTree none [] [] false (by decide) (by decide) (by decide)
      (by decide)⟩

/-- Claim C3 counterexample: after removing the row, its nested child
still resolves through getBlockById, where the claim demands null. -/
theorem c3_counterexample :
    getBlockById (removeBlock exModel "r").1 "c" = some exChild ∧ some exChild ≠ none := by
  refine ⟨by decide, by decide⟩

end EmailBuilder
